import Mathlib

/-!
# Border-based image cropping (`main.go`, `crop-image.go`)

A shallow embedding of the rectangle-detection logic of the two programs:
the pixel classifier `isBlack`, the row/column validator `isValidBorder`,
the coarse scan and the four-edge refinement of `main.go`, the single-pass
scan of `crop-image.go`, and the crop rectangle handed to `SubImage`.

Conventions of the embedding.

* Go's `int` is modelled by `Int`.  Every coordinate the programs compute is
  a coordinate of the decoded image (or one past it), so no arithmetic comes
  near the limits of a 64-bit integer.  For `isValidBorder`, whose arguments are
  not tied to an image, `isValidBorder64` models the same function on 64-bit
  integers, where `x++` wraps around; the two agree whenever the end coordinate
  is below the largest 64-bit integer.
* A counting loop `for i := s; i <= e; i++` (or the same loop counting down)
  is a structural recursion on the number of iterations that remain; that
  number starts at `span s e`, the number of integers `i` with `s ≤ i ≤ e`.
  A `break` or `return` inside the body ends the recursion early.
* A `color.Color` is represented by the four values its `RGBA()` method
  returns, which are all `isBlack` reads of it.
-/

namespace CropImage

/-! ## Data model -/

/-- The four values `r, g, b, a` returned by `color.Color.RGBA()`. -/
structure Color where
  r : Nat
  g : Nat
  b : Nat
  a : Nat
deriving DecidableEq, Repr

/-- Go's `image.Point`. -/
structure Point where
  X : Int
  Y : Int
deriving DecidableEq, Repr

/-- Go's `image.Rectangle`: `Min` is inclusive, `Max` is exclusive. -/
structure Rectangle where
  Min : Point
  Max : Point
deriving DecidableEq, Repr

/-- A decoded `image.Image`: its `Bounds()` and its `At(x, y)`. -/
structure Image where
  Bounds : Rectangle
  At : Int → Int → Color

/-- The four local variables `minX, minY, maxX, maxY` of `main`. -/
structure Box where
  minX : Int
  minY : Int
  maxX : Int
  maxY : Int
deriving DecidableEq, Repr

/-- Go's `type ValidType int`. -/
abbrev ValidType := Int

/-- The constant `Row` (`iota` = 0). -/
def Row : ValidType := 0

/-- The constant `Column` (`iota` = 1). -/
def Column : ValidType := 1

/-- Number of iterations of `for i := s; i <= e; i++`. -/
def span (s e : Int) : Nat := (e + 1 - s).toNat

/-! ## Pixel classifier -/

/-- The function `isBlack` (identical in `main.go` and `crop-image.go`). -/
def isBlack (c : Color) : Bool :=
  if c.a == 0 then false
  else c.r == 0 && c.g == 0 && c.b == 0

/-! ## Row / column validator -/

/-- The `case Row` loop of `isValidBorder`: `n` iterations remain, `x` is the
loop variable. -/
def rowLoop (img : Image) (coordinate : Int) : Nat → Int → Bool
  | 0, _ => true
  | n + 1, x =>
    if !isBlack (img.At x coordinate) then false
    else rowLoop img coordinate n (x + 1)

/-- The `case Column` loop of `isValidBorder`: `n` iterations remain, `y` is
the loop variable. -/
def colLoop (img : Image) (coordinate : Int) : Nat → Int → Bool
  | 0, _ => true
  | n + 1, y =>
    if !isBlack (img.At coordinate y) then false
    else colLoop img coordinate n (y + 1)

/-- The function `isValidBorder` of `main.go`, for coordinates on which the loop
counter does not wrap around (`initialEndCoordinate` below the largest 64-bit
integer), as are all coordinates `main` passes; `isValidBorder64` below is the
function on 64-bit integers. -/
def isValidBorder (validType : ValidType) (img : Image)
    (coordinate initialStartCoordinate initialEndCoordinate : Int) : Bool :=
  if validType = Row then
    rowLoop img coordinate (span initialStartCoordinate initialEndCoordinate)
      initialStartCoordinate
  else if validType = Column then
    colLoop img coordinate (span initialStartCoordinate initialEndCoordinate)
      initialStartCoordinate
  else false

/-! ## The validator on 64-bit integers -/

/-- The largest value of Go's `int` on a 64-bit platform, `2^63 - 1`. -/
def maxInt64 : Int := 9223372036854775807

/-- The smallest value of Go's `int` on a 64-bit platform, `-2^63`. -/
def minInt64 : Int := -9223372036854775808

/-- The value of a 64-bit signed integer after an arithmetic result `x`
wrapped around (two's complement). -/
def wrap64 (x : Int) : Int :=
  (x + 9223372036854775808) % 18446744073709551616 - 9223372036854775808

/-- The `case Row` loop of `isValidBorder` on 64-bit integers: the loop tests
`x <= e` before each iteration and `x++` wraps around; `none` when `fuel`
iterations were not enough to leave the loop. -/
def rowLoop64 (img : Image) (coordinate e : Int) : Nat → Int → Option Bool
  | 0, _ => none
  | fuel + 1, x =>
    if x ≤ e then
      if !isBlack (img.At x coordinate) then some false
      else rowLoop64 img coordinate e fuel (wrap64 (x + 1))
    else some true

/-- The `case Column` loop of `isValidBorder` on 64-bit integers. -/
def colLoop64 (img : Image) (coordinate e : Int) : Nat → Int → Option Bool
  | 0, _ => none
  | fuel + 1, y =>
    if y ≤ e then
      if !isBlack (img.At coordinate y) then some false
      else colLoop64 img coordinate e fuel (wrap64 (y + 1))
    else some true

/-- The function `isValidBorder` of `main.go` on 64-bit integers, run for at
most `fuel` tests of the loop condition. -/
def isValidBorder64 (validType : ValidType) (img : Image)
    (coordinate initialStartCoordinate initialEndCoordinate : Int) (fuel : Nat) :
    Option Bool :=
  if validType = Row then
    rowLoop64 img coordinate initialEndCoordinate fuel initialStartCoordinate
  else if validType = Column then
    colLoop64 img coordinate initialEndCoordinate fuel initialStartCoordinate
  else some false

/-! ## Phase 1: the coarse scan of `main.go` -/

/-- The values of `minX, minY, maxX, maxY` before the scan. -/
def initBox (img : Image) : Box :=
  { minX := img.Bounds.Max.X, minY := img.Bounds.Max.Y,
    maxX := img.Bounds.Min.X, maxY := img.Bounds.Min.Y }

/-- The body of the inner scan loop of `main.go` at pixel `(x, y)`. -/
def scanPixel (img : Image) (x y : Int) (b : Box) : Box :=
  if isBlack (img.At x y) then
    { minX := if x < b.minX then x else b.minX
      maxX := if x > b.maxX then x else b.maxX
      minY := if y < b.minY then y else b.minY
      maxY := if y > b.maxY then y else b.maxY }
  else b

/-- The inner loop `for x := bounds.Min.X; x < bounds.Max.X; x++` at row `y`:
`n` iterations remain. -/
def scanRow (img : Image) (y : Int) : Nat → Int → Box → Box
  | 0, _, b => b
  | n + 1, x, b => scanRow img y n (x + 1) (scanPixel img x y b)

/-- The outer loop `for y := bounds.Min.Y; y < bounds.Max.Y; y++`:
`n` iterations remain. -/
def scanRows (img : Image) : Nat → Int → Box → Box
  | 0, _, b => b
  | n + 1, y, b =>
    scanRows img n (y + 1)
      (scanRow img y (img.Bounds.Max.X - img.Bounds.Min.X).toNat img.Bounds.Min.X b)

/-- Phase 1 of `main.go`: the box after the double scan loop. -/
def coarseScan (img : Image) : Box :=
  scanRows img (img.Bounds.Max.Y - img.Bounds.Min.Y).toNat img.Bounds.Min.Y (initBox img)

/-! ## The single-pass scan of `crop-image.go` -/

/-- The body of the scan loop of `crop-image.go` at pixel `(x, y)`; the test
on `maxY` reads `minX` after its update. -/
def scanPixelSingle (img : Image) (x y : Int) (b : Box) : Box :=
  if isBlack (img.At x y) then
    let minX := if x < b.minX then x else b.minX
    { minX := minX
      maxX := if x > b.maxX then x else b.maxX
      minY := if y < b.minY then y else b.minY
      maxY := if y > b.maxY ∧ x = minX then y else b.maxY }
  else b

/-- The inner scan loop of `crop-image.go` at row `y`. -/
def scanRowSingle (img : Image) (y : Int) : Nat → Int → Box → Box
  | 0, _, b => b
  | n + 1, x, b => scanRowSingle img y n (x + 1) (scanPixelSingle img x y b)

/-- The outer scan loop of `crop-image.go`. -/
def scanRowsSingle (img : Image) : Nat → Int → Box → Box
  | 0, _, b => b
  | n + 1, y, b =>
    scanRowsSingle img n (y + 1)
      (scanRowSingle img y (img.Bounds.Max.X - img.Bounds.Min.X).toNat img.Bounds.Min.X b)

/-- The box `crop-image.go` computes. -/
def singlePassScan (img : Image) : Box :=
  scanRowsSingle img (img.Bounds.Max.Y - img.Bounds.Min.Y).toNat img.Bounds.Min.Y
    (initBox img)

/-! ## Phase 2: the edge refinement of `main.go` -/

/-- An upward search loop `for i := s; i <= e; i++ { if p i { v = i; break } }`:
`n` iterations remain, `i` is the loop variable, `cur` the value `v` has when no
`i` qualifies. -/
def firstUp (p : Int → Bool) (cur : Int) : Nat → Int → Int
  | 0, _ => cur
  | n + 1, i => if p i then i else firstUp p cur n (i + 1)

/-- A downward search loop `for i := e; i >= s; i-- { if p i { v = i; break } }`. -/
def firstDown (p : Int → Bool) (cur : Int) : Nat → Int → Int
  | 0, _ => cur
  | n + 1, i => if p i then i else firstDown p cur n (i - 1)

/-- Phase 2 of `main.go`: the four refinement loops, in source order (top row,
bottom row, left column, right column), each reading the values the earlier
ones assigned. -/
def refine (img : Image) (b : Box) : Box :=
  let minY := firstUp (fun y => isValidBorder Row img y b.minX b.maxX) b.minY
    (span b.minY b.maxY) b.minY
  let maxY := firstDown (fun y => isValidBorder Row img y b.minX b.maxX) b.maxY
    (span minY b.maxY) b.maxY
  let minX := firstUp (fun x => isValidBorder Column img x minY maxY) b.minX
    (span b.minX b.maxX) b.minX
  let maxX := firstDown (fun x => isValidBorder Column img x minY maxY) b.maxX
    (span minX b.maxX) b.maxX
  { minX := minX, minY := minY, maxX := maxX, maxY := maxY }

/-- The box of `main.go` after both phases. -/
def mainBox (img : Image) : Box := refine img (coarseScan img)

/-! ## The crop rectangle -/

/-- Go's `image.Rect`: the rectangle with the given corners, swapping the
coordinates of an axis when they come in the wrong order. -/
def Rect (x0 y0 x1 y1 : Int) : Rectangle :=
  let (x0, x1) := if x0 > x1 then (x1, x0) else (x0, x1)
  let (y0, y1) := if y0 > y1 then (y1, y0) else (y0, y1)
  { Min := ⟨x0, y0⟩, Max := ⟨x1, y1⟩ }

/-- The rectangle `cropRect := image.Rect(minX, minY, maxX+1, maxY+1)`. -/
def cropRect (b : Box) : Rectangle := Rect b.minX b.minY (b.maxX + 1) (b.maxY + 1)

/-- Go's `Rectangle.Empty`. -/
def Rectangle.Empty (r : Rectangle) : Bool :=
  decide (r.Min.X ≥ r.Max.X) || decide (r.Min.Y ≥ r.Max.Y)

/-- Go's `Point.In`. -/
def Point.In (p : Point) (r : Rectangle) : Bool :=
  decide (r.Min.X ≤ p.X) && decide (p.X < r.Max.X) &&
    decide (r.Min.Y ≤ p.Y) && decide (p.Y < r.Max.Y)

/-- Go's `Rectangle.Intersect`. -/
def Rectangle.Intersect (r s : Rectangle) : Rectangle :=
  let r1 : Rectangle :=
    { Min := ⟨if r.Min.X < s.Min.X then s.Min.X else r.Min.X,
              if r.Min.Y < s.Min.Y then s.Min.Y else r.Min.Y⟩
      Max := ⟨if r.Max.X > s.Max.X then s.Max.X else r.Max.X,
              if r.Max.Y > s.Max.Y then s.Max.Y else r.Max.Y⟩ }
  if r1.Empty then { Min := ⟨0, 0⟩, Max := ⟨0, 0⟩ } else r1

/-- Go's `SubImage` on the concrete image types of package `image`: the view
of `img` restricted to `r ∩ img.Bounds`; outside its bounds `At` is the zero
colour. -/
def SubImage (img : Image) (r : Rectangle) : Image :=
  let r1 := r.Intersect img.Bounds
  { Bounds := r1
    At := fun x y => if Point.In ⟨x, y⟩ r1 then img.At x y else ⟨0, 0, 0, 0⟩ }

/-- The image `main.go` encodes: `img.SubImage(cropRect)`. -/
def mainCrop (img : Image) : Image := SubImage img (cropRect (mainBox img))

/-! ## Vocabulary of the statements -/

/-- Pixel `(x, y)` lies inside the bounds of `img`. -/
def InBounds (img : Image) (x y : Int) : Prop :=
  img.Bounds.Min.X ≤ x ∧ x < img.Bounds.Max.X ∧ img.Bounds.Min.Y ≤ y ∧ y < img.Bounds.Max.Y

/-- Pixel `(x, y)` is a border pixel of `img`: it lies inside the bounds and
`isBlack` accepts it. -/
def BorderPixel (img : Image) (x y : Int) : Prop :=
  InBounds img x y ∧ isBlack (img.At x y) = true

/-- Row `y` is border at every `x` with `s ≤ x ≤ e`. -/
def RowFull (img : Image) (y s e : Int) : Prop :=
  ∀ x, s ≤ x → x ≤ e → isBlack (img.At x y) = true

/-- Column `x` is border at every `y` with `s ≤ y ≤ e`. -/
def ColFull (img : Image) (x s e : Int) : Prop :=
  ∀ y, s ≤ y → y ≤ e → isBlack (img.At x y) = true

/-- The bounds of `img` are non-empty. -/
def NonEmptyBounds (img : Image) : Prop :=
  img.Bounds.Min.X < img.Bounds.Max.X ∧ img.Bounds.Min.Y < img.Bounds.Max.Y

/-- The four edges of box `b` are border over the span of the opposite axis:
rows `minY` and `maxY` at every `x` in `[minX, maxX]`, columns `minX` and `maxX`
at every `y` in `[minY, maxY]`. -/
def EdgesFull (img : Image) (b : Box) : Prop :=
  RowFull img b.minY b.minX b.maxX ∧ RowFull img b.maxY b.minX b.maxX ∧
  ColFull img b.minX b.minY b.maxY ∧ ColFull img b.maxX b.minY b.maxY

/-- The same four tests made by `isValidBorder`. -/
def edgesCheck (img : Image) (b : Box) : Bool :=
  isValidBorder Row img b.minY b.minX b.maxX && isValidBorder Row img b.maxY b.minX b.maxX &&
  isValidBorder Column img b.minX b.minY b.maxY && isValidBorder Column img b.maxX b.minY b.maxY

/-- Box `q` is a non-empty rectangle lying inside box `r` and different from it. -/
def ProperlyInside (q r : Box) : Prop :=
  q.minX ≤ q.maxX ∧ q.minY ≤ q.maxY ∧
  r.minX ≤ q.minX ∧ q.maxX ≤ r.maxX ∧ r.minY ≤ q.minY ∧ q.maxY ≤ r.maxY ∧ q ≠ r

/-- A rectangular frame: the outer rectangle `[x0, x1] × [y0, y1]` without the
inner rectangle `[ix0, ix1] × [iy0, iy1]`. -/
structure Frame where
  x0 : Int
  x1 : Int
  y0 : Int
  y1 : Int
  ix0 : Int
  ix1 : Int
  iy0 : Int
  iy1 : Int
deriving DecidableEq, Repr

/-- The frame is at least one pixel thick on each of its four sides. -/
def Frame.Valid (f : Frame) : Prop :=
  f.x0 ≤ f.x1 ∧ f.y0 ≤ f.y1 ∧ f.x0 < f.ix0 ∧ f.ix1 < f.x1 ∧ f.y0 < f.iy0 ∧ f.iy1 < f.y1

/-- Pixel `(x, y)` lies on the frame. -/
def Frame.On (f : Frame) (x y : Int) : Prop :=
  (f.x0 ≤ x ∧ x ≤ f.x1 ∧ f.y0 ≤ y ∧ y ≤ f.y1) ∧
  ¬ (f.ix0 ≤ x ∧ x ≤ f.ix1 ∧ f.iy0 ≤ y ∧ y ≤ f.iy1)

/-- Pixel `(x, y)` lies in the outer rectangle of the frame. -/
def Frame.InOuter (f : Frame) (x y : Int) : Prop :=
  f.x0 ≤ x ∧ x ≤ f.x1 ∧ f.y0 ≤ y ∧ y ≤ f.y1

/-- The outer rectangle of the frame as a box. -/
def Frame.outerBox (f : Frame) : Box :=
  { minX := f.x0, minY := f.y0, maxX := f.x1, maxY := f.y1 }

/-- No border pixel of `img` other than `(sx, sy)` itself touches `(sx, sy)`,
not even diagonally. -/
def IsolatedAt (img : Image) (sx sy : Int) : Prop :=
  ∀ x y, BorderPixel img x y → (x = sx ∧ y = sy) ∨
    x < sx - 1 ∨ sx + 1 < x ∨ y < sy - 1 ∨ sy + 1 < y

/-- The border pixels of `img` are exactly the pixels of the frame `f` and one
stray pixel `(sx, sy)`: the frame is at least one pixel thick on every side and
lies inside the bounds, the stray pixel lies inside the bounds and outside the
outer rectangle of the frame, and it is isolated. -/
def FramePlusStray (img : Image) (f : Frame) (sx sy : Int) : Prop :=
  f.Valid ∧ (InBounds img f.x0 f.y0 ∧ InBounds img f.x1 f.y1) ∧
  InBounds img sx sy ∧ ¬ f.InOuter sx sy ∧ IsolatedAt img sx sy ∧
  ∀ x y, InBounds img x y → (isBlack (img.At x y) = true ↔ (f.On x y ∨ (x = sx ∧ y = sy)))

/-- The stray pixel `(sx, sy)` lies straight above, below, left or right of
the frame: it shares a column or a row with the outer rectangle. -/
def InLine (f : Frame) (sx sy : Int) : Prop :=
  (f.x0 ≤ sx ∧ sx ≤ f.x1) ∨ (f.y0 ≤ sy ∧ sy ≤ f.y1)

instance (img : Image) (x y : Int) : Decidable (InBounds img x y) :=
  inferInstanceAs (Decidable (_ ∧ _))

instance (img : Image) (x y : Int) : Decidable (BorderPixel img x y) :=
  inferInstanceAs (Decidable (_ ∧ _))

instance (f : Frame) : Decidable f.Valid :=
  inferInstanceAs (Decidable (_ ∧ _))

instance (f : Frame) (x y : Int) : Decidable (f.On x y) :=
  inferInstanceAs (Decidable (_ ∧ _))

instance (f : Frame) (x y : Int) : Decidable (f.InOuter x y) :=
  inferInstanceAs (Decidable (_ ∧ _))

instance (q r : Box) : Decidable (ProperlyInside q r) :=
  inferInstanceAs (Decidable (_ ∧ _))

instance (img : Image) : Decidable (NonEmptyBounds img) :=
  inferInstanceAs (Decidable (_ ∧ _))

/-! ## Sample images -/

/-- Opaque black. -/
def black : Color := ⟨0, 0, 0, 65535⟩

/-- Opaque white. -/
def white : Color := ⟨65535, 65535, 65535, 65535⟩

/-- A `w × h` image, white except for a black frame. -/
def frameImage (w h : Int) (f : Frame) : Image :=
  { Bounds := ⟨⟨0, 0⟩, ⟨w, h⟩⟩
    At := fun x y => if f.On x y then black else white }

/-- A `w × h` image, white except for a black frame and one more black pixel
at `(sx, sy)`. -/
def frameStrayImage (w h : Int) (f : Frame) (sx sy : Int) : Image :=
  { Bounds := ⟨⟨0, 0⟩, ⟨w, h⟩⟩
    At := fun x y => if f.On x y ∨ (x = sx ∧ y = sy) then black else white }

/-- The frame with outer rectangle `[2, 4] × [2, 4]` and the single interior
pixel `(3, 3)`. -/
def sampleFrame : Frame :=
  { x0 := 2, x1 := 4, y0 := 2, y1 := 4, ix0 := 3, ix1 := 3, iy0 := 3, iy1 := 3 }

/-- The frame with outer rectangle `[0, 4] × [0, 4]`, two pixels thick, around
the single interior pixel `(2, 2)`. -/
def thickFrame : Frame :=
  { x0 := 0, x1 := 4, y0 := 0, y1 := 4, ix0 := 2, ix1 := 2, iy0 := 2, iy1 := 2 }

/-- A 7 × 7 image holding `sampleFrame` alone. -/
def frameOnly : Image := frameImage 7 7 sampleFrame

/-- A 5 × 5 image holding `thickFrame` alone. -/
def thickOnly : Image := frameImage 5 5 thickFrame

/-- A 7 × 7 image holding `sampleFrame` and a stray black pixel at `(0, 0)`,
diagonally off the frame. -/
def frameStrayDiag : Image := frameStrayImage 7 7 sampleFrame 0 0

/-- A 7 × 7 image holding `sampleFrame` and a stray black pixel at `(3, 0)`,
straight above the frame. -/
def frameStrayAbove : Image := frameStrayImage 7 7 sampleFrame 3 0

/-- A 2 × 2 image: black at `(0, 0)`, `(0, 1)` and `(1, 1)`, white at `(1, 0)`. -/
def notch : Image :=
  { Bounds := ⟨⟨0, 0⟩, ⟨2, 2⟩⟩
    At := fun x y => if x = 1 ∧ y = 0 then white else black }

/-- A 2 × 2 image: black on the diagonal `(0, 0)`, `(1, 1)`, white elsewhere. -/
def diag2 : Image :=
  { Bounds := ⟨⟨0, 0⟩, ⟨2, 2⟩⟩
    At := fun x y => if x = y then black else white }

/-- A 3 × 3 image, black everywhere. -/
def solid3 : Image :=
  { Bounds := ⟨⟨0, 0⟩, ⟨3, 3⟩⟩
    At := fun _ _ => black }

/-- An image whose pixels are black in column `maxInt64` and white everywhere
else (bounds `[0, 0, 1, 1)`). -/
def edgePixel : Image :=
  { Bounds := ⟨⟨0, 0⟩, ⟨1, 1⟩⟩
    At := fun x _ => if x = maxInt64 then black else white }

/-- A 2 × 2 image, white everywhere. -/
def blank2 : Image :=
  { Bounds := ⟨⟨0, 0⟩, ⟨2, 2⟩⟩
    At := fun _ _ => white }

/-- The image `crop-image.go` encodes: `img.SubImage(cropRect)` for the box of
its single-pass scan. -/
def singleCrop (img : Image) : Image := SubImage img (cropRect (singlePassScan img))

/-- Box `b` is well-ordered and lies inside the bounds of `img`:
`bounds.Min.X ≤ minX ≤ maxX < bounds.Max.X` and the same for `y`. -/
def SafeBox (img : Image) (b : Box) : Prop :=
  img.Bounds.Min.X ≤ b.minX ∧ b.minX ≤ b.maxX ∧ b.maxX < img.Bounds.Max.X ∧
  img.Bounds.Min.Y ≤ b.minY ∧ b.minY ≤ b.maxY ∧ b.maxY < img.Bounds.Max.Y

/-- The pixels the scan loops have visited when the outer loop is at row `y` and
the inner loop is about to read column `x`: the rows above `y`, and row `y` to the
left of `x`. -/
def Visited (img : Image) (y x : Int) (u v : Int) : Prop :=
  img.Bounds.Min.X ≤ u ∧ u < img.Bounds.Max.X ∧ img.Bounds.Min.Y ≤ v ∧
  (v < y ∨ (v = y ∧ u < x))

/-- The state of the single-pass scan of `crop-image.go` after it has read the
border pixels `P`: with no pixel in `P`, `minX` and `maxY` still have their initial
values; otherwise `minX` is the least `x` of a pixel of `P` and `maxY` the
greatest `y` of a pixel of `P` in column `minX`. -/
def SingleInvOn (P : Int → Int → Prop) (img : Image) (b : Box) : Prop :=
  ((∀ u v, ¬ P u v) ∧ b.minX = img.Bounds.Max.X ∧ b.maxY = img.Bounds.Min.Y) ∨
  (IsLeast {u | ∃ v, P u v} b.minX ∧ IsGreatest {v | P b.minX v} b.maxY)

/-- The invariant of the single-pass scan when the outer loop is at row `y` and
the inner loop is about to read column `x`. -/
def SingleInv (img : Image) (y x : Int) (b : Box) : Prop :=
  SingleInvOn (fun u v => Visited img y x u v ∧ isBlack (img.At u v) = true) img b

instance (img : Image) (b : Box) : Decidable (SafeBox img b) :=
  inferInstanceAs (Decidable (_ ∧ _))

/-- A 4 × 3 image: columns 1 and 3 are black, joined by the black pixel `(2, 1)`,
and `(0, 0)` is black; everything else is white. -/
def twoColumns : Image :=
  { Bounds := ⟨⟨0, 0⟩, ⟨4, 3⟩⟩
    At := fun x y =>
      if x = 1 ∨ x = 3 ∨ (x = 2 ∧ y = 1) ∨ (x = 0 ∧ y = 0) then black else white }

/-- The image `img` with its origin moved to `(dx, dy)`: pixel `(x, y)` of the
result is pixel `(x + dx, y + dy)` of `img`. -/
def translate (img : Image) (dx dy : Int) : Image :=
  { Bounds := ⟨⟨img.Bounds.Min.X - dx, img.Bounds.Min.Y - dy⟩,
               ⟨img.Bounds.Max.X - dx, img.Bounds.Max.Y - dy⟩⟩
    At := fun x y => img.At (x + dx) (y + dy) }

/-- Box `b` seen from the origin `(dx, dy)`. -/
def Box.shift (b : Box) (dx dy : Int) : Box :=
  { minX := b.minX - dx, minY := b.minY - dy, maxX := b.maxX - dx, maxY := b.maxY - dy }

/-- The image read back from the PNG file written for `img`: a PNG file stores
the width, the height and the pixels, so decoding gives the same pixels with
bounds that start at `(0, 0)`. -/
def reDecoded (img : Image) : Image := translate img img.Bounds.Min.X img.Bounds.Min.Y

/-! ## The scan invariant (definition) -/

/-- Box `r` is box `b` widened by exactly the border pixels among the pixels
`V`: it contains `b`'s extremes and each of those pixels, and each side that
moved away from `b` passes through one of them. -/
structure Tight (img : Image) (V : Int → Int → Prop) (b r : Box) : Prop where
  minX_le : r.minX ≤ b.minX
  minY_le : r.minY ≤ b.minY
  le_maxX : b.maxX ≤ r.maxX
  le_maxY : b.maxY ≤ r.maxY
  cover : ∀ x y, V x y → isBlack (img.At x y) = true →
    r.minX ≤ x ∧ x ≤ r.maxX ∧ r.minY ≤ y ∧ y ≤ r.maxY
  minX_att : r.minX = b.minX ∨ ∃ y, V r.minX y ∧ isBlack (img.At r.minX y) = true
  maxX_att : r.maxX = b.maxX ∨ ∃ y, V r.maxX y ∧ isBlack (img.At r.maxX y) = true
  minY_att : r.minY = b.minY ∨ ∃ x, V x r.minY ∧ isBlack (img.At x r.minY) = true
  maxY_att : r.maxY = b.maxY ∨ ∃ x, V x r.maxY ∧ isBlack (img.At x r.maxY) = true

/-! ## The classifier -/

/-- C1: `isBlack` is total and returns `true` exactly for the pixels with
`a ≠ 0` and `r = g = b = 0`; `(0,0,0,0)` is not a border pixel, `(0,0,0,1)` is,
and no pixel with `a = 0` is. -/
theorem isBlack_iff :
    (∀ c : Color, isBlack c = true ↔ (c.a ≠ 0 ∧ c.r = 0 ∧ c.g = 0 ∧ c.b = 0)) ∧
    isBlack ⟨0, 0, 0, 0⟩ = false ∧
    isBlack ⟨0, 0, 0, 1⟩ = true ∧
    (∀ r g b : Nat, isBlack ⟨r, g, b, 0⟩ = false) := by
  refine ⟨?_, rfl, rfl, ?_⟩
  · intro c
    unfold isBlack
    by_cases ha : c.a = 0
    · simp [ha]
    · simp [ha, and_assoc]
  · intro r g b
    simp [isBlack]

/-! ## Loop lemmas -/

theorem span_pos {s e : Int} (h : s ≤ e) : span s e = span (s + 1) e + 1 := by
  unfold span; omega

theorem span_lt_iff (s e i : Int) (hi : s ≤ i) : i < s + (span s e : Int) ↔ i ≤ e := by
  unfold span; omega

theorem rowLoop_iff (img : Image) (y : Int) (n : Nat) (x : Int) :
    rowLoop img y n x = true ↔ ∀ i, x ≤ i → i < x + (n : Int) → isBlack (img.At i y) = true := by
  induction n generalizing x with
  | zero =>
    simp only [rowLoop, true_iff]
    intro i h1 h2
    omega
  | succ n ih =>
    simp only [rowLoop]
    by_cases hb : isBlack (img.At x y) = true
    · simp only [hb, Bool.not_true, Bool.false_eq_true, if_false, ih]
      constructor
      · intro h i h1 h2
        by_cases hx : i = x
        · subst hx; exact hb
        · exact h i (by omega) (by push_cast at h2; omega)
      · intro h i h1 h2
        exact h i (by omega) (by push_cast; omega)
    · have hb' : isBlack (img.At x y) = false := by simpa using hb
      simp only [hb', Bool.not_false, if_true, Bool.false_eq_true, false_iff]
      intro h
      have := h x (le_refl x) (by push_cast; omega)
      simp [hb'] at this

theorem colLoop_iff (img : Image) (x : Int) (n : Nat) (y : Int) :
    colLoop img x n y = true ↔ ∀ i, y ≤ i → i < y + (n : Int) → isBlack (img.At x i) = true := by
  induction n generalizing y with
  | zero =>
    simp only [colLoop, true_iff]
    intro i h1 h2
    omega
  | succ n ih =>
    simp only [colLoop]
    by_cases hb : isBlack (img.At x y) = true
    · simp only [hb, Bool.not_true, Bool.false_eq_true, if_false, ih]
      constructor
      · intro h i h1 h2
        by_cases hx : i = y
        · subst hx; exact hb
        · exact h i (by omega) (by push_cast at h2; omega)
      · intro h i h1 h2
        exact h i (by omega) (by push_cast; omega)
    · have hb' : isBlack (img.At x y) = false := by simpa using hb
      simp only [hb', Bool.not_false, if_true, Bool.false_eq_true, false_iff]
      intro h
      have := h y (le_refl y) (by push_cast; omega)
      simp [hb'] at this

theorem isValidBorder_row_iff (img : Image) (y s e : Int) :
    isValidBorder Row img y s e = true ↔ RowFull img y s e := by
  unfold isValidBorder RowFull
  rw [if_pos rfl, rowLoop_iff]
  constructor
  · intro h x h1 h2
    exact h x h1 ((span_lt_iff s e x h1).2 h2)
  · intro h x h1 h2
    exact h x h1 ((span_lt_iff s e x h1).1 h2)

theorem isValidBorder_col_iff (img : Image) (x s e : Int) :
    isValidBorder Column img x s e = true ↔ ColFull img x s e := by
  unfold isValidBorder ColFull
  rw [if_neg (by decide), if_pos rfl, colLoop_iff]
  constructor
  · intro h y h1 h2
    exact h y h1 ((span_lt_iff s e y h1).2 h2)
  · intro h y h1 h2
    exact h y h1 ((span_lt_iff s e y h1).1 h2)

theorem firstUp_cases (p : Int → Bool) (cur : Int) (n : Nat) (i : Int) :
    (∃ j, i ≤ j ∧ j < i + (n : Int) ∧ p j = true ∧ (∀ k, i ≤ k → k < j → p k = false) ∧
        firstUp p cur n i = j) ∨
    ((∀ k, i ≤ k → k < i + (n : Int) → p k = false) ∧ firstUp p cur n i = cur) := by
  induction n generalizing i with
  | zero =>
    right
    refine ⟨?_, rfl⟩
    intro k h1 h2
    omega
  | succ n ih =>
    simp only [firstUp]
    by_cases hp : p i = true
    · left
      refine ⟨i, le_refl i, by push_cast; omega, hp, ?_, by simp [hp]⟩
      intro k h1 h2
      omega
    · have hp' : p i = false := by simpa using hp
      simp only [hp', Bool.false_eq_true, if_false]
      rcases ih (i + 1) with ⟨j, h1, h2, h3, h4, h5⟩ | ⟨h1, h2⟩
      · left
        refine ⟨j, by omega, by push_cast; omega, h3, ?_, h5⟩
        intro k hk1 hk2
        by_cases hki : k = i
        · subst hki; exact hp'
        · exact h4 k (by omega) hk2
      · right
        refine ⟨?_, h2⟩
        intro k hk1 hk2
        by_cases hki : k = i
        · subst hki; exact hp'
        · exact h1 k (by omega) (by push_cast at hk2; omega)

theorem firstDown_cases (p : Int → Bool) (cur : Int) (n : Nat) (i : Int) :
    (∃ j, i - (n : Int) < j ∧ j ≤ i ∧ p j = true ∧ (∀ k, j < k → k ≤ i → p k = false) ∧
        firstDown p cur n i = j) ∨
    ((∀ k, i - (n : Int) < k → k ≤ i → p k = false) ∧ firstDown p cur n i = cur) := by
  induction n generalizing i with
  | zero =>
    right
    refine ⟨?_, rfl⟩
    intro k h1 h2
    omega
  | succ n ih =>
    simp only [firstDown]
    by_cases hp : p i = true
    · left
      refine ⟨i, by push_cast; omega, le_refl i, hp, ?_, by simp [hp]⟩
      intro k h1 h2
      omega
    · have hp' : p i = false := by simpa using hp
      simp only [hp', Bool.false_eq_true, if_false]
      rcases ih (i - 1) with ⟨j, h1, h2, h3, h4, h5⟩ | ⟨h1, h2⟩
      · left
        refine ⟨j, by push_cast; omega, by omega, h3, ?_, h5⟩
        intro k hk1 hk2
        by_cases hki : k = i
        · subst hki; exact hp'
        · exact h4 k hk1 (by omega)
      · right
        refine ⟨?_, h2⟩
        intro k hk1 hk2
        by_cases hki : k = i
        · subst hki; exact hp'
        · exact h1 k (by push_cast at hk1; omega) (by omega)

/-- What an upward search loop over `[s, e]` leaves in its variable. -/
theorem firstUp_span {P : Int → Prop} {p : Int → Bool} (hp : ∀ k, p k = true ↔ P k)
    (cur s e : Int) :
    IsLeast {k | s ≤ k ∧ k ≤ e ∧ P k} (firstUp p cur (span s e) s) ∨
    ((∀ k, s ≤ k → k ≤ e → ¬ P k) ∧ firstUp p cur (span s e) s = cur) := by
  rcases firstUp_cases p cur (span s e) s with ⟨j, h1, h2, h3, h4, h5⟩ | ⟨h1, h2⟩
  · left
    rw [h5]
    refine ⟨⟨h1, (span_lt_iff s e j h1).1 h2, (hp j).1 h3⟩, ?_⟩
    rintro k ⟨hk1, _, hk3⟩
    by_contra hlt
    have := h4 k hk1 (by omega)
    rw [(hp k).2 hk3] at this
    exact Bool.noConfusion this
  · right
    refine ⟨?_, h2⟩
    intro k hk1 hk2 hk3
    have := h1 k hk1 ((span_lt_iff s e k hk1).2 hk2)
    rw [(hp k).2 hk3] at this
    exact Bool.noConfusion this

theorem span_gt_iff (s e i : Int) (hi : i ≤ e) : e - (span s e : Int) < i ↔ s ≤ i := by
  unfold span; omega

/-- What a downward search loop over `[s, e]` leaves in its variable. -/
theorem firstDown_span {P : Int → Prop} {p : Int → Bool} (hp : ∀ k, p k = true ↔ P k)
    (cur s e : Int) :
    IsGreatest {k | s ≤ k ∧ k ≤ e ∧ P k} (firstDown p cur (span s e) e) ∨
    ((∀ k, s ≤ k → k ≤ e → ¬ P k) ∧ firstDown p cur (span s e) e = cur) := by
  rcases firstDown_cases p cur (span s e) e with ⟨j, h1, h2, h3, h4, h5⟩ | ⟨h1, h2⟩
  · left
    rw [h5]
    refine ⟨⟨(span_gt_iff s e j h2).1 h1, h2, (hp j).1 h3⟩, ?_⟩
    rintro k ⟨_, hk2, hk3⟩
    by_contra hlt
    have := h4 k (by omega) hk2
    rw [(hp k).2 hk3] at this
    exact Bool.noConfusion this
  · right
    refine ⟨?_, h2⟩
    intro k hk1 hk2 hk3
    have := h1 k ((span_gt_iff s e k hk2).2 hk1) hk2
    rw [(hp k).2 hk3] at this
    exact Bool.noConfusion this

theorem firstUp_eq_of_isLeast {P : Int → Prop} {p : Int → Bool} (hp : ∀ k, p k = true ↔ P k)
    (cur s e v : Int) (h : IsLeast {k | s ≤ k ∧ k ≤ e ∧ P k} v) :
    firstUp p cur (span s e) s = v := by
  rcases firstUp_span hp cur s e with h1 | ⟨h1, _⟩
  · exact h1.unique h
  · exact absurd h.1.2.2 (h1 v h.1.1 h.1.2.1)

theorem firstUp_eq_of_none {P : Int → Prop} {p : Int → Bool} (hp : ∀ k, p k = true ↔ P k)
    (cur s e : Int) (h : ∀ k, s ≤ k → k ≤ e → ¬ P k) :
    firstUp p cur (span s e) s = cur := by
  rcases firstUp_span hp cur s e with h1 | ⟨_, h2⟩
  · exact absurd h1.1.2.2 (h _ h1.1.1 h1.1.2.1)
  · exact h2

theorem firstDown_eq_of_isGreatest {P : Int → Prop} {p : Int → Bool}
    (hp : ∀ k, p k = true ↔ P k) (cur s e v : Int)
    (h : IsGreatest {k | s ≤ k ∧ k ≤ e ∧ P k} v) :
    firstDown p cur (span s e) e = v := by
  rcases firstDown_span hp cur s e with h1 | ⟨h1, _⟩
  · exact h1.unique h
  · exact absurd h.1.2.2 (h1 v h.1.1 h.1.2.1)

theorem firstDown_eq_of_none {P : Int → Prop} {p : Int → Bool} (hp : ∀ k, p k = true ↔ P k)
    (cur s e : Int) (h : ∀ k, s ≤ k → k ≤ e → ¬ P k) :
    firstDown p cur (span s e) e = cur := by
  rcases firstDown_span hp cur s e with h1 | ⟨_, h2⟩
  · exact absurd h1.1.2.2 (h _ h1.1.1 h1.1.2.1)
  · exact h2

/-! ## The scan invariant -/

theorem Tight.none (img : Image) (V : Int → Int → Prop) (hV : ∀ x y, ¬ V x y) (b : Box) :
    Tight img V b b :=
  { minX_le := le_refl _, minY_le := le_refl _, le_maxX := le_refl _, le_maxY := le_refl _
    cover := fun x y h _ => absurd h (hV x y)
    minX_att := Or.inl rfl, maxX_att := Or.inl rfl
    minY_att := Or.inl rfl, maxY_att := Or.inl rfl }

theorem Tight.pixel (img : Image) (x y : Int) (b : Box) :
    Tight img (fun u v => u = x ∧ v = y) b (scanPixel img x y b) := by
  unfold scanPixel
  by_cases hb : isBlack (img.At x y) = true
  · rw [if_pos hb]
    refine ⟨?_, ?_, ?_, ?_, ?_, ?_, ?_, ?_, ?_⟩
    · dsimp only; split <;> omega
    · dsimp only; split <;> omega
    · dsimp only; split <;> omega
    · dsimp only; split <;> omega
    · rintro u v ⟨rfl, rfl⟩ _
      dsimp only
      refine ⟨?_, ?_, ?_, ?_⟩ <;> split <;> omega
    · dsimp only
      by_cases h : x < b.minX
      · right; rw [if_pos h]; exact ⟨y, ⟨rfl, rfl⟩, hb⟩
      · left; rw [if_neg h]
    · dsimp only
      by_cases h : x > b.maxX
      · right; rw [if_pos h]; exact ⟨y, ⟨rfl, rfl⟩, hb⟩
      · left; rw [if_neg h]
    · dsimp only
      by_cases h : y < b.minY
      · right; rw [if_pos h]; exact ⟨x, ⟨rfl, rfl⟩, hb⟩
      · left; rw [if_neg h]
    · dsimp only
      by_cases h : y > b.maxY
      · right; rw [if_pos h]; exact ⟨x, ⟨rfl, rfl⟩, hb⟩
      · left; rw [if_neg h]
  · rw [if_neg hb]
    exact
      { minX_le := le_refl _, minY_le := le_refl _, le_maxX := le_refl _, le_maxY := le_refl _
        cover := fun u v h hb' => by
          obtain ⟨rfl, rfl⟩ := h
          exact absurd hb' hb
        minX_att := Or.inl rfl, maxX_att := Or.inl rfl
        minY_att := Or.inl rfl, maxY_att := Or.inl rfl }

theorem Tight.trans {img : Image} {V W U : Int → Int → Prop} {b r s : Box}
    (h1 : Tight img V b r) (h2 : Tight img W r s) (hU : ∀ x y, U x y ↔ V x y ∨ W x y) :
    Tight img U b s := by
  refine ⟨?_, ?_, ?_, ?_, ?_, ?_, ?_, ?_, ?_⟩
  · exact le_trans h2.minX_le h1.minX_le
  · exact le_trans h2.minY_le h1.minY_le
  · exact le_trans h1.le_maxX h2.le_maxX
  · exact le_trans h1.le_maxY h2.le_maxY
  · intro x y hu hb
    rcases (hU x y).1 hu with hv | hw
    · have c := h1.cover x y hv hb
      have a1 := h2.minX_le
      have a2 := h2.minY_le
      have a3 := h2.le_maxX
      have a4 := h2.le_maxY
      omega
    · exact h2.cover x y hw hb
  · rcases h2.minX_att with e | ⟨y, hw, hb⟩
    · rcases h1.minX_att with e1 | ⟨y, hv, hb⟩
      · left; rw [e, e1]
      · right; rw [e]; exact ⟨y, (hU _ _).2 (Or.inl hv), hb⟩
    · right; exact ⟨y, (hU _ _).2 (Or.inr hw), hb⟩
  · rcases h2.maxX_att with e | ⟨y, hw, hb⟩
    · rcases h1.maxX_att with e1 | ⟨y, hv, hb⟩
      · left; rw [e, e1]
      · right; rw [e]; exact ⟨y, (hU _ _).2 (Or.inl hv), hb⟩
    · right; exact ⟨y, (hU _ _).2 (Or.inr hw), hb⟩
  · rcases h2.minY_att with e | ⟨x, hw, hb⟩
    · rcases h1.minY_att with e1 | ⟨x, hv, hb⟩
      · left; rw [e, e1]
      · right; rw [e]; exact ⟨x, (hU _ _).2 (Or.inl hv), hb⟩
    · right; exact ⟨x, (hU _ _).2 (Or.inr hw), hb⟩
  · rcases h2.maxY_att with e | ⟨x, hw, hb⟩
    · rcases h1.maxY_att with e1 | ⟨x, hv, hb⟩
      · left; rw [e, e1]
      · right; rw [e]; exact ⟨x, (hU _ _).2 (Or.inl hv), hb⟩
    · right; exact ⟨x, (hU _ _).2 (Or.inr hw), hb⟩

theorem scanRow_tight (img : Image) (y : Int) (n : Nat) (x : Int) (b : Box) :
    Tight img (fun u v => v = y ∧ x ≤ u ∧ u < x + (n : Int)) b (scanRow img y n x b) := by
  induction n generalizing x b with
  | zero =>
    exact Tight.none img _ (fun u v h => by simp only [Nat.cast_zero] at h; omega) b
  | succ n ih =>
    simp only [scanRow]
    refine Tight.trans (Tight.pixel img x y b) (ih (x + 1) (scanPixel img x y b)) ?_
    intro u v
    push_cast
    constructor
    · rintro ⟨h1, h2, h3⟩
      by_cases hu : u = x
      · exact Or.inl ⟨hu, h1⟩
      · exact Or.inr ⟨h1, by omega, by omega⟩
    · rintro (⟨h1, h2⟩ | ⟨h1, h2, h3⟩)
      · exact ⟨h2, by omega, by omega⟩
      · exact ⟨h1, by omega, by omega⟩

theorem scanRows_tight (img : Image) (n : Nat) (y : Int) (b : Box) :
    Tight img (fun u v => y ≤ v ∧ v < y + (n : Int) ∧
        img.Bounds.Min.X ≤ u ∧ u < img.Bounds.Max.X) b (scanRows img n y b) := by
  induction n generalizing y b with
  | zero =>
    exact Tight.none img _ (fun u v h => by simp only [Nat.cast_zero] at h; omega) b
  | succ n ih =>
    simp only [scanRows]
    refine Tight.trans (scanRow_tight img y _ _ b) (ih (y + 1) _) ?_
    intro u v
    push_cast
    constructor
    · rintro ⟨h1, h2, h3, h4⟩
      by_cases hv : v = y
      · exact Or.inl ⟨hv, h3, by omega⟩
      · exact Or.inr ⟨by omega, by omega, h3, h4⟩
    · rintro (⟨h1, h2, h3⟩ | ⟨h1, h2, h3, h4⟩)
      · exact ⟨by omega, by omega, h2, by omega⟩
      · exact ⟨by omega, by omega, h3, h4⟩

/-- The coarse scan widens the initial box by exactly the border pixels. -/
theorem coarseScan_tight (img : Image) :
    Tight img (InBounds img) (initBox img) (coarseScan img) := by
  unfold coarseScan
  have h := scanRows_tight img (img.Bounds.Max.Y - img.Bounds.Min.Y).toNat img.Bounds.Min.Y
    (initBox img)
  refine Tight.trans (Tight.none img (fun _ _ => False) (fun _ _ h => h) (initBox img)) h ?_
  intro u v
  unfold InBounds
  constructor
  · rintro ⟨h1, h2, h3, h4⟩
    exact Or.inr ⟨h3, by omega, h1, h2⟩
  · rintro (h | ⟨h1, h2, h3, h4⟩)
    · exact h.elim
    · exact ⟨h3, h4, h1, by omega⟩

/-! ## Consequences for the coarse box -/

theorem coarseScan_cover (img : Image) (x y : Int) (h : BorderPixel img x y) :
    (coarseScan img).minX ≤ x ∧ x ≤ (coarseScan img).maxX ∧
    (coarseScan img).minY ≤ y ∧ y ≤ (coarseScan img).maxY :=
  (coarseScan_tight img).cover x y h.1 h.2

theorem coarseScan_extremes (img : Image) (h : ∃ x y, BorderPixel img x y) :
    IsLeast {x | ∃ y, BorderPixel img x y} (coarseScan img).minX ∧
    IsGreatest {x | ∃ y, BorderPixel img x y} (coarseScan img).maxX ∧
    IsLeast {y | ∃ x, BorderPixel img x y} (coarseScan img).minY ∧
    IsGreatest {y | ∃ x, BorderPixel img x y} (coarseScan img).maxY := by
  obtain ⟨x0, y0, h0⟩ := h
  have t := coarseScan_tight img
  have c0 := coarseScan_cover img x0 y0 h0
  have hin := h0.1
  unfold InBounds at hin
  refine ⟨⟨?_, ?_⟩, ⟨?_, ?_⟩, ⟨?_, ?_⟩, ⟨?_, ?_⟩⟩
  · rcases t.minX_att with e | ⟨y, hv, hb⟩
    · simp only [initBox] at e; omega
    · exact ⟨y, hv, hb⟩
  · rintro x ⟨y, hxy⟩
    exact (coarseScan_cover img x y hxy).1
  · rcases t.maxX_att with e | ⟨y, hv, hb⟩
    · simp only [initBox] at e
      have : (coarseScan img).maxX = x0 := by omega
      rw [this]; exact ⟨y0, h0⟩
    · exact ⟨y, hv, hb⟩
  · rintro x ⟨y, hxy⟩
    exact (coarseScan_cover img x y hxy).2.1
  · rcases t.minY_att with e | ⟨x, hv, hb⟩
    · simp only [initBox] at e; omega
    · exact ⟨x, hv, hb⟩
  · rintro y ⟨x, hxy⟩
    exact (coarseScan_cover img x y hxy).2.2.1
  · rcases t.maxY_att with e | ⟨x, hv, hb⟩
    · simp only [initBox] at e
      have : (coarseScan img).maxY = y0 := by omega
      rw [this]; exact ⟨x0, h0⟩
    · exact ⟨x, hv, hb⟩
  · rintro y ⟨x, hxy⟩
    exact (coarseScan_cover img x y hxy).2.2.2

theorem Box.eq_of {r : Box} {a c b d : Int} (h1 : r.minX = a) (h2 : r.minY = c)
    (h3 : r.maxX = b) (h4 : r.maxY = d) : r = ⟨a, c, b, d⟩ := by
  cases r
  simp only [Box.mk.injEq]
  exact ⟨h1, h2, h3, h4⟩

/-- The coarse box of an image whose border pixels have the given extremes. -/
theorem coarseScan_eq_of (img : Image) (a c b d : Int)
    (hall : ∀ x y, BorderPixel img x y → a ≤ x ∧ x ≤ b ∧ c ≤ y ∧ y ≤ d)
    (ha : ∃ y, BorderPixel img a y) (hb : ∃ y, BorderPixel img b y)
    (hc : ∃ x, BorderPixel img x c) (hd : ∃ x, BorderPixel img x d) :
    coarseScan img = ⟨a, c, b, d⟩ := by
  obtain ⟨ya, hya⟩ := ha
  obtain ⟨h1, h2, h3, h4⟩ := coarseScan_extremes img ⟨a, ya, hya⟩
  refine Box.eq_of ?_ ?_ ?_ ?_
  · exact h1.unique ⟨⟨ya, hya⟩, fun x ⟨y, hxy⟩ => (hall x y hxy).1⟩
  · exact h3.unique ⟨hc, fun y ⟨x, hxy⟩ => (hall x y hxy).2.2.1⟩
  · exact h2.unique ⟨hb, fun x ⟨y, hxy⟩ => (hall x y hxy).2.1⟩
  · exact h4.unique ⟨hd, fun y ⟨x, hxy⟩ => (hall x y hxy).2.2.2⟩

/-- Without a border pixel the scan leaves the initial box. -/
theorem coarseScan_eq_init (img : Image) (h : ∀ x y, ¬ BorderPixel img x y) :
    coarseScan img = initBox img := by
  have t := coarseScan_tight img
  have hn : ∀ (P : Prop) (u v : Int), InBounds img u v ∧ isBlack (img.At u v) = true → P :=
    fun P u v huv => absurd huv (h u v)
  cases hc : coarseScan img with
  | mk a c b d =>
    rw [hc] at t
    have e1 : a = (initBox img).minX := t.minX_att.elim id (fun ⟨y, hy⟩ => hn _ _ _ hy)
    have e2 : b = (initBox img).maxX := t.maxX_att.elim id (fun ⟨y, hy⟩ => hn _ _ _ hy)
    have e3 : c = (initBox img).minY := t.minY_att.elim id (fun ⟨x, hx⟩ => hn _ _ _ hx)
    have e4 : d = (initBox img).maxY := t.maxY_att.elim id (fun ⟨x, hx⟩ => hn _ _ _ hx)
    rw [e1, e2, e3, e4]

/-! ## Consequences for the refinement -/

/-- The four refinement loops, each described by what it searches for. -/
theorem refine_cases (img : Image) (b : Box) :
    (IsLeast {y | b.minY ≤ y ∧ y ≤ b.maxY ∧ RowFull img y b.minX b.maxX} (refine img b).minY ∨
      ((∀ y, b.minY ≤ y → y ≤ b.maxY → ¬ RowFull img y b.minX b.maxX) ∧
        (refine img b).minY = b.minY)) ∧
    (IsGreatest {y | (refine img b).minY ≤ y ∧ y ≤ b.maxY ∧ RowFull img y b.minX b.maxX}
        (refine img b).maxY ∨
      ((∀ y, (refine img b).minY ≤ y → y ≤ b.maxY → ¬ RowFull img y b.minX b.maxX) ∧
        (refine img b).maxY = b.maxY)) ∧
    (IsLeast {x | b.minX ≤ x ∧ x ≤ b.maxX ∧
          ColFull img x (refine img b).minY (refine img b).maxY} (refine img b).minX ∨
      ((∀ x, b.minX ≤ x → x ≤ b.maxX →
          ¬ ColFull img x (refine img b).minY (refine img b).maxY) ∧
        (refine img b).minX = b.minX)) ∧
    (IsGreatest {x | (refine img b).minX ≤ x ∧ x ≤ b.maxX ∧
          ColFull img x (refine img b).minY (refine img b).maxY} (refine img b).maxX ∨
      ((∀ x, (refine img b).minX ≤ x → x ≤ b.maxX →
          ¬ ColFull img x (refine img b).minY (refine img b).maxY) ∧
        (refine img b).maxX = b.maxX)) := by
  unfold refine
  dsimp only
  refine ⟨?_, ?_, ?_, ?_⟩
  · exact firstUp_span (fun y => isValidBorder_row_iff img y b.minX b.maxX) _ _ _
  · exact firstDown_span (fun y => isValidBorder_row_iff img y b.minX b.maxX) _ _ _
  · exact firstUp_span (fun x => isValidBorder_col_iff img x _ _) _ _ _
  · exact firstDown_span (fun x => isValidBorder_col_iff img x _ _) _ _ _

/-- Refinement only moves the edges inward. -/
theorem refine_within (img : Image) (b : Box) :
    b.minX ≤ (refine img b).minX ∧ (refine img b).maxX ≤ b.maxX ∧
    b.minY ≤ (refine img b).minY ∧ (refine img b).maxY ≤ b.maxY := by
  obtain ⟨h1, h2, h3, h4⟩ := refine_cases img b
  refine ⟨?_, ?_, ?_, ?_⟩
  · rcases h3 with h | ⟨_, e⟩
    · exact h.1.1
    · exact le_of_eq e.symm
  · rcases h4 with h | ⟨_, e⟩
    · exact h.1.2.1
    · exact le_of_eq e
  · rcases h1 with h | ⟨_, e⟩
    · exact h.1.1
    · exact le_of_eq e.symm
  · rcases h2 with h | ⟨_, e⟩
    · exact h.1.2.1
    · exact le_of_eq e

/-- Refinement with the outcome of each loop supplied. -/
theorem refine_eq (img : Image) (b : Box) (ny xy nx xx : Int)
    (h1 : firstUp (fun y => isValidBorder Row img y b.minX b.maxX) b.minY
      (span b.minY b.maxY) b.minY = ny)
    (h2 : firstDown (fun y => isValidBorder Row img y b.minX b.maxX) b.maxY
      (span ny b.maxY) b.maxY = xy)
    (h3 : firstUp (fun x => isValidBorder Column img x ny xy) b.minX
      (span b.minX b.maxX) b.minX = nx)
    (h4 : firstDown (fun x => isValidBorder Column img x ny xy) b.maxX
      (span nx b.maxX) b.maxX = xx) :
    refine img b = ⟨nx, ny, xx, xy⟩ := by
  subst h1 h2 h3 h4
  rfl

theorem refine_rows_full (img : Image) (b : Box)
    (h : ∃ y, b.minY ≤ y ∧ y ≤ b.maxY ∧ RowFull img y b.minX b.maxX) :
    RowFull img (refine img b).minY (refine img b).minX (refine img b).maxX ∧
    RowFull img (refine img b).maxY (refine img b).minX (refine img b).maxX := by
  obtain ⟨y0, hy1, hy2, hy3⟩ := h
  obtain ⟨h1, h2, _, _⟩ := refine_cases img b
  obtain ⟨w1, w2, _, _⟩ := refine_within img b
  have top : IsLeast {y | b.minY ≤ y ∧ y ≤ b.maxY ∧ RowFull img y b.minX b.maxX}
      (refine img b).minY := by
    rcases h1 with h | ⟨hn, _⟩
    · exact h
    · exact absurd hy3 (hn y0 hy1 hy2)
  have bot : IsGreatest {y | (refine img b).minY ≤ y ∧ y ≤ b.maxY ∧
      RowFull img y b.minX b.maxX} (refine img b).maxY := by
    rcases h2 with h | ⟨hn, _⟩
    · exact h
    · exact absurd top.1.2.2 (hn _ (le_refl _) top.1.2.1)
  constructor
  · intro x hx1 hx2
    exact top.1.2.2 x (by omega) (by omega)
  · intro x hx1 hx2
    exact bot.1.2.2 x (by omega) (by omega)

theorem refine_cols_full (img : Image) (b : Box)
    (h : ∃ x, b.minX ≤ x ∧ x ≤ b.maxX ∧
      ColFull img x (refine img b).minY (refine img b).maxY) :
    ColFull img (refine img b).minX (refine img b).minY (refine img b).maxY ∧
    ColFull img (refine img b).maxX (refine img b).minY (refine img b).maxY := by
  obtain ⟨x0, hx1, hx2, hx3⟩ := h
  obtain ⟨_, _, h3, h4⟩ := refine_cases img b
  have lft : IsLeast {x | b.minX ≤ x ∧ x ≤ b.maxX ∧
      ColFull img x (refine img b).minY (refine img b).maxY} (refine img b).minX := by
    rcases h3 with h | ⟨hn, _⟩
    · exact h
    · exact absurd hx3 (hn x0 hx1 hx2)
  have rgt : IsGreatest {x | (refine img b).minX ≤ x ∧ x ≤ b.maxX ∧
      ColFull img x (refine img b).minY (refine img b).maxY} (refine img b).maxX := by
    rcases h4 with h | ⟨hn, _⟩
    · exact h
    · exact absurd lft.1.2.2 (hn _ (le_refl _) lft.1.2.1)
  exact ⟨lft.1.2.2, rgt.1.2.2⟩

/-- A box whose own four edges are fully border is left as it is. -/
theorem refine_fixed (img : Image) (b : Box) (hx : b.minX ≤ b.maxX) (hy : b.minY ≤ b.maxY)
    (h1 : RowFull img b.minY b.minX b.maxX) (h2 : RowFull img b.maxY b.minX b.maxX)
    (h3 : ColFull img b.minX b.minY b.maxY) (h4 : ColFull img b.maxX b.minY b.maxY) :
    refine img b = b := by
  have e := refine_eq img b b.minY b.maxY b.minX b.maxX
    (firstUp_eq_of_isLeast (fun y => isValidBorder_row_iff img y b.minX b.maxX) _ _ _ _
      ⟨⟨le_refl _, hy, h1⟩, fun y hy => hy.1⟩)
    (firstDown_eq_of_isGreatest (fun y => isValidBorder_row_iff img y b.minX b.maxX) _ _ _ _
      ⟨⟨hy, le_refl _, h2⟩, fun y hy => hy.2.1⟩)
    (firstUp_eq_of_isLeast (fun x => isValidBorder_col_iff img x b.minY b.maxY) _ _ _ _
      ⟨⟨le_refl _, hx, h3⟩, fun x hx => hx.1⟩)
    (firstDown_eq_of_isGreatest (fun x => isValidBorder_col_iff img x b.minY b.maxY) _ _ _ _
      ⟨⟨hx, le_refl _, h4⟩, fun x hx => hx.2.1⟩)
  rw [e]

/-- A box in which no row and no column qualifies is left as it is. -/
theorem refine_unchanged (img : Image) (b : Box)
    (hr : ∀ y, b.minY ≤ y → y ≤ b.maxY → ¬ RowFull img y b.minX b.maxX)
    (hc : ∀ x, b.minX ≤ x → x ≤ b.maxX → ¬ ColFull img x b.minY b.maxY) :
    refine img b = b := by
  have e := refine_eq img b b.minY b.maxY b.minX b.maxX
    (firstUp_eq_of_none (fun y => isValidBorder_row_iff img y b.minX b.maxX) _ _ _ hr)
    (firstDown_eq_of_none (fun y => isValidBorder_row_iff img y b.minX b.maxX) _ _ _ hr)
    (firstUp_eq_of_none (fun x => isValidBorder_col_iff img x b.minY b.maxY) _ _ _ hc)
    (firstDown_eq_of_none (fun x => isValidBorder_col_iff img x b.minY b.maxY) _ _ _ hc)
  rw [e]

theorem edgesCheck_iff (img : Image) (b : Box) : edgesCheck img b = true ↔ EdgesFull img b := by
  unfold edgesCheck EdgesFull
  simp only [Bool.and_eq_true, isValidBorder_row_iff, isValidBorder_col_iff, and_assoc]

theorem frameImage_black (w h : Int) (f : Frame) (x y : Int) :
    isBlack ((frameImage w h f).At x y) = true ↔ f.On x y := by
  unfold frameImage
  dsimp only
  by_cases hon : f.On x y
  · simp only [if_pos hon, hon, iff_true]; rfl
  · simp only [if_neg hon, hon, iff_false]; decide

theorem frameStrayImage_black (w h : Int) (f : Frame) (sx sy x y : Int) :
    isBlack ((frameStrayImage w h f sx sy).At x y) = true ↔ f.On x y ∨ (x = sx ∧ y = sy) := by
  unfold frameStrayImage
  dsimp only
  by_cases hon : f.On x y ∨ (x = sx ∧ y = sy)
  · simp only [if_pos hon, hon, iff_true]; rfl
  · simp only [if_neg hon, hon, iff_false]; decide

/-! ## The claims about the two phases -/

/-- C2: for an image with at least one border pixel, the coarse scan of `main.go`
ends with `minX`, `maxX` the least and greatest `x`, and `minY`, `maxY` the least
and greatest `y`, over all border pixels: every border pixel is inside the box
and each side of the box passes through a border pixel. -/
theorem coarseScan_tightest (img : Image) (h : ∃ x y, BorderPixel img x y) :
    IsLeast {x | ∃ y, BorderPixel img x y} (coarseScan img).minX ∧
    IsGreatest {x | ∃ y, BorderPixel img x y} (coarseScan img).maxX ∧
    IsLeast {y | ∃ x, BorderPixel img x y} (coarseScan img).minY ∧
    IsGreatest {y | ∃ x, BorderPixel img x y} (coarseScan img).maxY :=
  coarseScan_extremes img h

/-- The image `notch` has a border pixel and its coarse box is `(0, 0, 1, 1)`. -/
theorem coarseScan_tightest_witness :
    (∃ x y, BorderPixel notch x y) ∧
    coarseScan notch = ⟨0, 0, 1, 1⟩ ∧
    IsLeast {x | ∃ y, BorderPixel notch x y} (coarseScan notch).minX ∧
    IsGreatest {x | ∃ y, BorderPixel notch x y} (coarseScan notch).maxX ∧
    IsLeast {y | ∃ x, BorderPixel notch x y} (coarseScan notch).minY ∧
    IsGreatest {y | ∃ x, BorderPixel notch x y} (coarseScan notch).maxY :=
  ⟨⟨0, 0, by decide⟩, by decide, coarseScan_tightest notch ⟨0, 0, by decide⟩⟩

/-- C3: the refinement of `main.go`, run on any box `b`, sets in this order
`minY` to the least `y` in `[b.minY, b.maxY]` whose row is border across
`[b.minX, b.maxX]`, `maxY` to the greatest such `y` in `[minY, b.maxY]`, `minX` to
the least `x` in `[b.minX, b.maxX]` whose column is border across the new
`[minY, maxY]`, and `maxX` to the greatest such `x` in `[minX, b.maxX]`; a value
for which no row or column of its range qualifies is left unchanged. -/
theorem refine_least_greatest (img : Image) (b : Box) :
    (IsLeast {y | b.minY ≤ y ∧ y ≤ b.maxY ∧ RowFull img y b.minX b.maxX} (refine img b).minY ∨
      ((∀ y, b.minY ≤ y → y ≤ b.maxY → ¬ RowFull img y b.minX b.maxX) ∧
        (refine img b).minY = b.minY)) ∧
    (IsGreatest {y | (refine img b).minY ≤ y ∧ y ≤ b.maxY ∧ RowFull img y b.minX b.maxX}
        (refine img b).maxY ∨
      ((∀ y, (refine img b).minY ≤ y → y ≤ b.maxY → ¬ RowFull img y b.minX b.maxX) ∧
        (refine img b).maxY = b.maxY)) ∧
    (IsLeast {x | b.minX ≤ x ∧ x ≤ b.maxX ∧
          ColFull img x (refine img b).minY (refine img b).maxY} (refine img b).minX ∨
      ((∀ x, b.minX ≤ x → x ≤ b.maxX →
          ¬ ColFull img x (refine img b).minY (refine img b).maxY) ∧
        (refine img b).minX = b.minX)) ∧
    (IsGreatest {x | (refine img b).minX ≤ x ∧ x ≤ b.maxX ∧
          ColFull img x (refine img b).minY (refine img b).maxY} (refine img b).maxX ∨
      ((∀ x, (refine img b).minX ≤ x → x ≤ b.maxX →
          ¬ ColFull img x (refine img b).minY (refine img b).maxY) ∧
        (refine img b).maxX = b.maxX)) :=
  refine_cases img b

/-- The two boxes of an image that holds one frame and nothing else. -/
theorem frame_boxes_of (img : Image) (f : Frame) (hv : f.Valid)
    (hin : InBounds img f.x0 f.y0 ∧ InBounds img f.x1 f.y1)
    (hb : ∀ x y, InBounds img x y → (isBlack (img.At x y) = true ↔ f.On x y)) :
    coarseScan img = f.outerBox ∧ mainBox img = f.outerBox := by
  obtain ⟨v1, v2, v3, v4, v5, v6⟩ := hv
  obtain ⟨⟨i1, i2, i3, i4⟩, j1, j2, j3, j4⟩ := hin
  have inb : ∀ x y, f.x0 ≤ x → x ≤ f.x1 → f.y0 ≤ y → y ≤ f.y1 → InBounds img x y :=
    fun x y a1 a2 a3 a4 => ⟨by omega, by omega, by omega, by omega⟩
  have blk : ∀ x y, f.x0 ≤ x → x ≤ f.x1 → f.y0 ≤ y → y ≤ f.y1 →
      (x < f.ix0 ∨ f.ix1 < x ∨ y < f.iy0 ∨ f.iy1 < y) → isBlack (img.At x y) = true := by
    intro x y a1 a2 a3 a4 a5
    refine (hb x y (inb x y a1 a2 a3 a4)).2 ⟨⟨a1, a2, a3, a4⟩, ?_⟩
    rintro ⟨c1, c2, c3, c4⟩
    omega
  have bp : ∀ x y, f.x0 ≤ x → x ≤ f.x1 → f.y0 ≤ y → y ≤ f.y1 →
      (x < f.ix0 ∨ f.ix1 < x ∨ y < f.iy0 ∨ f.iy1 < y) → BorderPixel img x y :=
    fun x y a1 a2 a3 a4 a5 => ⟨inb x y a1 a2 a3 a4, blk x y a1 a2 a3 a4 a5⟩
  have hc : coarseScan img = f.outerBox := by
    refine coarseScan_eq_of img f.x0 f.y0 f.x1 f.y1 ?_ ?_ ?_ ?_ ?_
    · rintro x y ⟨hxy, hk⟩
      exact ((hb x y hxy).1 hk).1
    · exact ⟨f.y0, bp _ _ (le_refl _) v1 (le_refl _) v2 (Or.inl v3)⟩
    · exact ⟨f.y0, bp _ _ v1 (le_refl _) (le_refl _) v2 (Or.inr (Or.inl v4))⟩
    · exact ⟨f.x0, bp _ _ (le_refl _) v1 (le_refl _) v2 (Or.inl v3)⟩
    · exact ⟨f.x0, bp _ _ (le_refl _) v1 v2 (le_refl _) (Or.inl v3)⟩
  refine ⟨hc, ?_⟩
  unfold mainBox
  rw [hc]
  refine refine_fixed img f.outerBox v1 v2 ?_ ?_ ?_ ?_
  · intro x a1 a2
    exact blk x f.y0 a1 a2 (le_refl _) v2 (Or.inr (Or.inr (Or.inl v5)))
  · intro x a1 a2
    exact blk x f.y1 a1 a2 v2 (le_refl _) (Or.inr (Or.inr (Or.inr v6)))
  · intro y a1 a2
    exact blk f.x0 y (le_refl _) v1 a1 a2 (Or.inl v3)
  · intro y a1 a2
    exact blk f.x1 y v1 (le_refl _) a1 a2 (Or.inr (Or.inl v4))

/-- C4: when the border pixels of an image are exactly the pixels of one
rectangular frame, at least one pixel thick on every side, the coarse box and
the refined box of `main.go` both equal the outer rectangle of the frame. -/
theorem frame_boxes (img : Image) (f : Frame) (hv : f.Valid)
    (hin : InBounds img f.x0 f.y0 ∧ InBounds img f.x1 f.y1)
    (hb : ∀ x y, InBounds img x y → (isBlack (img.At x y) = true ↔ f.On x y)) :
    coarseScan img = f.outerBox ∧ mainBox img = f.outerBox :=
  frame_boxes_of img f hv hin hb

/-- The image `frameOnly`: both boxes are the frame `(2, 2, 4, 4)`. -/
theorem frame_boxes_witness :
    sampleFrame.Valid ∧
    coarseScan frameOnly = ⟨2, 2, 4, 4⟩ ∧ mainBox frameOnly = ⟨2, 2, 4, 4⟩ :=
  ⟨by decide,
    frame_boxes frameOnly sampleFrame (by decide) (by decide)
      (fun x y _ => frameImage_black 7 7 sampleFrame x y)⟩

/-! ## A frame and a stray pixel -/

theorem fps_inb {img : Image} {f : Frame} {sx sy : Int} (h : FramePlusStray img f sx sy)
    (x y : Int) (hx1 : min f.x0 sx ≤ x) (hx2 : x ≤ max f.x1 sx)
    (hy1 : min f.y0 sy ≤ y) (hy2 : y ≤ max f.y1 sy) : InBounds img x y := by
  obtain ⟨_, ⟨⟨i1, i2, i3, i4⟩, j1, j2, j3, j4⟩, ⟨s1, s2, s3, s4⟩, _, _, _⟩ := h
  exact ⟨by omega, by omega, by omega, by omega⟩

/-- A border pixel of the coarse box lies in the outer rectangle of the frame
or is the stray pixel. -/
theorem fps_key {img : Image} {f : Frame} {sx sy : Int} (h : FramePlusStray img f sx sy)
    (x y : Int) (hx1 : min f.x0 sx ≤ x) (hx2 : x ≤ max f.x1 sx)
    (hy1 : min f.y0 sy ≤ y) (hy2 : y ≤ max f.y1 sy) (hk : isBlack (img.At x y) = true) :
    (f.x0 ≤ x ∧ x ≤ f.x1 ∧ f.y0 ≤ y ∧ y ≤ f.y1) ∨ (x = sx ∧ y = sy) := by
  have hin := fps_inb h x y hx1 hx2 hy1 hy2
  rcases (h.2.2.2.2.2 x y hin).1 hk with hon | hs
  · exact Or.inl hon.1
  · exact Or.inr hs

/-- A border pixel of the coarse box other than the stray pixel does not
touch the stray pixel. -/
theorem fps_iso {img : Image} {f : Frame} {sx sy : Int} (h : FramePlusStray img f sx sy)
    (x y : Int) (hx1 : min f.x0 sx ≤ x) (hx2 : x ≤ max f.x1 sx)
    (hy1 : min f.y0 sy ≤ y) (hy2 : y ≤ max f.y1 sy) (hk : isBlack (img.At x y) = true) :
    (x = sx ∧ y = sy) ∨ x < sx - 1 ∨ sx + 1 < x ∨ y < sy - 1 ∨ sy + 1 < y :=
  h.2.2.2.2.1 x y ⟨fps_inb h x y hx1 hx2 hy1 hy2, hk⟩

/-- The pixels of the outer rectangle that are outside the inner rectangle are
border pixels. -/
theorem fps_blk {img : Image} {f : Frame} {sx sy : Int} (h : FramePlusStray img f sx sy)
    (x y : Int) (hx1 : f.x0 ≤ x) (hx2 : x ≤ f.x1) (hy1 : f.y0 ≤ y) (hy2 : y ≤ f.y1)
    (hn : x < f.ix0 ∨ f.ix1 < x ∨ y < f.iy0 ∨ f.iy1 < y) : BorderPixel img x y := by
  obtain ⟨_, ⟨⟨i1, i2, i3, i4⟩, j1, j2, j3, j4⟩, _, _, _, hb⟩ := h
  have hin : InBounds img x y := ⟨by omega, by omega, by omega, by omega⟩
  refine ⟨hin, (hb x y hin).2 (Or.inl ⟨⟨hx1, hx2, hy1, hy2⟩, ?_⟩)⟩
  rintro ⟨c1, c2, c3, c4⟩
  omega

theorem fps_stray {img : Image} {f : Frame} {sx sy : Int} (h : FramePlusStray img f sx sy) :
    BorderPixel img sx sy :=
  ⟨h.2.2.1, (h.2.2.2.2.2 sx sy h.2.2.1).2 (Or.inr ⟨rfl, rfl⟩)⟩

/-- The coarse box of a frame and a stray pixel is the bounding box of both. -/
theorem fps_coarse {img : Image} {f : Frame} {sx sy : Int} (h : FramePlusStray img f sx sy) :
    coarseScan img = ⟨min f.x0 sx, min f.y0 sy, max f.x1 sx, max f.y1 sy⟩ := by
  obtain ⟨v1, v2, v3, v4, v5, v6⟩ := h.1
  have hb := h.2.2.2.2.2
  have sbp := fps_stray h
  refine coarseScan_eq_of img _ _ _ _ ?_ ?_ ?_ ?_ ?_
  · rintro x y ⟨hxy, hk⟩
    have := (hb x y hxy).1 hk
    unfold Frame.On at this
    omega
  · by_cases hlt : sx < f.x0
    · rw [min_eq_right (le_of_lt hlt)]; exact ⟨sy, sbp⟩
    · rw [min_eq_left (by omega)]
      exact ⟨f.y0, fps_blk h _ _ (le_refl _) v1 (le_refl _) v2 (Or.inl v3)⟩
  · by_cases hlt : f.x1 < sx
    · rw [max_eq_right (le_of_lt hlt)]; exact ⟨sy, sbp⟩
    · rw [max_eq_left (by omega)]
      exact ⟨f.y0, fps_blk h _ _ v1 (le_refl _) (le_refl _) v2 (Or.inr (Or.inl v4))⟩
  · by_cases hlt : sy < f.y0
    · rw [min_eq_right (le_of_lt hlt)]; exact ⟨sx, sbp⟩
    · rw [min_eq_left (by omega)]
      exact ⟨f.x0, fps_blk h _ _ (le_refl _) v1 (le_refl _) v2 (Or.inl v3)⟩
  · by_cases hlt : f.y1 < sy
    · rw [max_eq_right (le_of_lt hlt)]; exact ⟨sx, sbp⟩
    · rw [max_eq_left (by omega)]
      exact ⟨f.x0, fps_blk h _ _ (le_refl _) v1 v2 (le_refl _) (Or.inl v3)⟩

/-- A row of the coarse box that is border across its whole width is a row of
the frame, and the stray pixel then shares a column with the frame. -/
theorem fps_row {img : Image} {f : Frame} {sx sy : Int} (h : FramePlusStray img f sx sy)
    (hw : f.x0 < f.x1) (hl : InLine f sx sy) (y : Int)
    (hy1 : min f.y0 sy ≤ y) (hy2 : y ≤ max f.y1 sy)
    (hf : RowFull img y (min f.x0 sx) (max f.x1 sx)) :
    f.y0 ≤ y ∧ y ≤ f.y1 ∧ (f.x0 ≤ sx ∧ sx ≤ f.x1) := by
  have v1 := h.1.1
  have hout := h.2.2.2.1
  unfold Frame.InOuter at hout
  unfold InLine at hl
  by_cases hv : f.x0 ≤ sx ∧ sx ≤ f.x1
  · have k1 := fps_key h f.x0 y (by omega) (by omega) hy1 hy2 (hf f.x0 (by omega) (by omega))
    have k2 := fps_key h f.x1 y (by omega) (by omega) hy1 hy2 (hf f.x1 (by omega) (by omega))
    omega
  · exfalso
    have k0 := fps_key h sx y (by omega) (by omega) hy1 hy2 (hf sx (by omega) (by omega))
    have hy : y = sy := by omega
    subst hy
    by_cases hlt : sx < f.x0
    · have hk := hf (sx + 1) (by omega) (by omega)
      have k1 := fps_key h (sx + 1) y (by omega) (by omega) hy1 hy2 hk
      have k2 := fps_iso h (sx + 1) y (by omega) (by omega) hy1 hy2 hk
      omega
    · have hk := hf (sx - 1) (by omega) (by omega)
      have k1 := fps_key h (sx - 1) y (by omega) (by omega) hy1 hy2 hk
      have k2 := fps_iso h (sx - 1) y (by omega) (by omega) hy1 hy2 hk
      omega

/-- A column of the coarse box that is border across the height of the frame
is a column of the frame. -/
theorem fps_col {img : Image} {f : Frame} {sx sy : Int} (h : FramePlusStray img f sx sy)
    (hw : f.y0 < f.y1) (x : Int) (hx1 : min f.x0 sx ≤ x) (hx2 : x ≤ max f.x1 sx)
    (hf : ColFull img x f.y0 f.y1) : f.x0 ≤ x ∧ x ≤ f.x1 := by
  have k1 := fps_key h x f.y0 hx1 hx2 (by omega) (by omega) (hf f.y0 (le_refl _) (le_of_lt hw))
  have k2 := fps_key h x f.y1 hx1 hx2 (by omega) (by omega) (hf f.y1 (le_of_lt hw) (le_refl _))
  omega

theorem fps_top {img : Image} {f : Frame} {sx sy : Int} (h : FramePlusStray img f sx sy)
    (hw : f.x0 < f.x1) (hl : InLine f sx sy) :
    firstUp (fun y => isValidBorder Row img y (min f.x0 sx) (max f.x1 sx)) (min f.y0 sy)
      (span (min f.y0 sy) (max f.y1 sy)) (min f.y0 sy) = f.y0 := by
  obtain ⟨v1, v2, v3, v4, v5, v6⟩ := h.1
  by_cases hv : f.x0 ≤ sx ∧ sx ≤ f.x1
  · refine firstUp_eq_of_isLeast (fun y => isValidBorder_row_iff img y _ _) _ _ _ _
      ⟨⟨by omega, by omega, ?_⟩, fun y hy => (fps_row h hw hl y hy.1 hy.2.1 hy.2.2).1⟩
    intro x a1 a2
    exact (fps_blk h x f.y0 (by omega) (by omega) (le_refl _) v2
      (Or.inr (Or.inr (Or.inl v5)))).2
  · rw [firstUp_eq_of_none (fun y => isValidBorder_row_iff img y _ _) _ _ _
      (fun y a1 a2 hf => hv (fps_row h hw hl y a1 a2 hf).2.2)]
    unfold InLine at hl
    omega

theorem fps_bottom {img : Image} {f : Frame} {sx sy : Int} (h : FramePlusStray img f sx sy)
    (hw : f.x0 < f.x1) (hl : InLine f sx sy) :
    firstDown (fun y => isValidBorder Row img y (min f.x0 sx) (max f.x1 sx)) (max f.y1 sy)
      (span f.y0 (max f.y1 sy)) (max f.y1 sy) = f.y1 := by
  obtain ⟨v1, v2, v3, v4, v5, v6⟩ := h.1
  have c0 : min f.y0 sy ≤ f.y0 := min_le_left _ _
  by_cases hv : f.x0 ≤ sx ∧ sx ≤ f.x1
  · refine firstDown_eq_of_isGreatest (fun y => isValidBorder_row_iff img y _ _) _ _ _ _
      ⟨⟨by omega, by omega, ?_⟩,
        fun y hy => (fps_row h hw hl y (le_trans c0 hy.1) hy.2.1 hy.2.2).2.1⟩
    intro x a1 a2
    exact (fps_blk h x f.y1 (by omega) (by omega) v2 (le_refl _)
      (Or.inr (Or.inr (Or.inr v6)))).2
  · rw [firstDown_eq_of_none (fun y => isValidBorder_row_iff img y _ _) _ _ _
      (fun y a1 a2 hf => hv (fps_row h hw hl y (le_trans c0 a1) a2 hf).2.2)]
    unfold InLine at hl
    omega

theorem fps_left {img : Image} {f : Frame} {sx sy : Int} (h : FramePlusStray img f sx sy)
    (hw : f.y0 < f.y1) :
    firstUp (fun x => isValidBorder Column img x f.y0 f.y1) (min f.x0 sx)
      (span (min f.x0 sx) (max f.x1 sx)) (min f.x0 sx) = f.x0 := by
  obtain ⟨v1, v2, v3, v4, v5, v6⟩ := h.1
  refine firstUp_eq_of_isLeast (fun x => isValidBorder_col_iff img x _ _) _ _ _ _
    ⟨⟨by omega, by omega, ?_⟩, fun x hx => (fps_col h hw x hx.1 hx.2.1 hx.2.2).1⟩
  intro y a1 a2
  exact (fps_blk h f.x0 y (le_refl _) v1 a1 a2 (Or.inl v3)).2

theorem fps_right {img : Image} {f : Frame} {sx sy : Int} (h : FramePlusStray img f sx sy)
    (hw : f.y0 < f.y1) :
    firstDown (fun x => isValidBorder Column img x f.y0 f.y1) (max f.x1 sx)
      (span f.x0 (max f.x1 sx)) (max f.x1 sx) = f.x1 := by
  obtain ⟨v1, v2, v3, v4, v5, v6⟩ := h.1
  have c0 : min f.x0 sx ≤ f.x0 := min_le_left _ _
  refine firstDown_eq_of_isGreatest (fun x => isValidBorder_col_iff img x _ _) _ _ _ _
    ⟨⟨by omega, by omega, ?_⟩,
      fun x hx => (fps_col h hw x (le_trans c0 hx.1) hx.2.1 hx.2.2).2⟩
  intro y a1 a2
  exact (fps_blk h f.x1 y v1 (le_refl _) a1 a2 (Or.inr (Or.inl v4))).2

/-- With the stray pixel in line with the frame, the refinement of the coarse
box ends on the outer rectangle of the frame. -/
theorem fps_inline {img : Image} {f : Frame} {sx sy : Int} (h : FramePlusStray img f sx sy)
    (hw : f.x0 < f.x1 ∧ f.y0 < f.y1) (hl : InLine f sx sy) :
    refine img ⟨min f.x0 sx, min f.y0 sy, max f.x1 sx, max f.y1 sy⟩ = f.outerBox :=
  refine_eq img ⟨min f.x0 sx, min f.y0 sy, max f.x1 sx, max f.y1 sy⟩ f.y0 f.y1 f.x0 f.x1
    (fps_top h hw.1 hl) (fps_bottom h hw.1 hl) (fps_left h hw.2) (fps_right h hw.2)

/-- With the stray pixel diagonally off the frame, no row and no column of the
coarse box qualifies, and the refinement leaves the coarse box. -/
theorem fps_diag {img : Image} {f : Frame} {sx sy : Int} (h : FramePlusStray img f sx sy)
    (hl : ¬ InLine f sx sy) :
    refine img ⟨min f.x0 sx, min f.y0 sy, max f.x1 sx, max f.y1 sy⟩ =
      ⟨min f.x0 sx, min f.y0 sy, max f.x1 sx, max f.y1 sy⟩ := by
  have v1 := h.1.1
  have v2 := h.1.2.1
  unfold InLine at hl
  refine refine_unchanged img _ ?_ ?_
  · intro y a1 a2 hf
    dsimp only at a1 a2 hf
    have k0 := fps_key h sx y (by omega) (by omega) a1 a2 (hf sx (by omega) (by omega))
    have k1 := fps_key h f.x1 y (by omega) (by omega) a1 a2 (hf f.x1 (by omega) (by omega))
    omega
  · intro x a1 a2 hf
    dsimp only at a1 a2 hf
    have k0 := fps_key h x sy a1 a2 (by omega) (by omega) (hf sy (by omega) (by omega))
    have k1 := fps_key h x f.y1 a1 a2 (by omega) (by omega) (hf f.y1 (by omega) (by omega))
    omega

theorem frameStray_plus (f : Frame) (w h sx sy : Int) (hv : f.Valid)
    (hin : 0 ≤ f.x0 ∧ f.x1 < w ∧ 0 ≤ f.y0 ∧ f.y1 < h)
    (hs : 0 ≤ sx ∧ sx < w ∧ 0 ≤ sy ∧ sy < h)
    (hfar : sx < f.x0 - 1 ∨ f.x1 + 1 < sx ∨ sy < f.y0 - 1 ∨ f.y1 + 1 < sy) :
    FramePlusStray (frameStrayImage w h f sx sy) f sx sy := by
  have hv' := hv
  obtain ⟨v1, v2, v3, v4, v5, v6⟩ := hv'
  refine ⟨hv, ⟨⟨?_, ?_, ?_, ?_⟩, ?_, ?_, ?_, ?_⟩, ⟨?_, ?_, ?_, ?_⟩, ?_, ?_, ?_⟩
  all_goals try (simp only [frameStrayImage]; omega)
  · unfold Frame.InOuter; omega
  · rintro x y ⟨_, hk⟩
    rcases (frameStrayImage_black w h f sx sy x y).1 hk with hon | hst
    · unfold Frame.On at hon
      omega
    · exact Or.inl hst
  · intro x y _
    exact frameStrayImage_black w h f sx sy x y

/-- C5 (as amended): when the border pixels of an image are exactly a frame at
least two pixels wide and high and one isolated stray pixel outside its outer
rectangle, the coarse box of `main.go` is the bounding box of the frame and the
stray pixel, so it is larger than the frame; the refined box equals the outer
rectangle of the frame when the stray pixel lies straight above, below, left or
right of the frame, and equals the coarse box when it lies diagonally off it. -/
theorem frame_stray_boxes (img : Image) (f : Frame) (sx sy : Int)
    (h : FramePlusStray img f sx sy) (hw : f.x0 < f.x1 ∧ f.y0 < f.y1) :
    coarseScan img = ⟨min f.x0 sx, min f.y0 sy, max f.x1 sx, max f.y1 sy⟩ ∧
    coarseScan img ≠ f.outerBox ∧
    (InLine f sx sy → mainBox img = f.outerBox) ∧
    (¬ InLine f sx sy → mainBox img = coarseScan img) := by
  have hc := fps_coarse h
  refine ⟨hc, ?_, ?_, ?_⟩
  · have hout := h.2.2.2.1
    unfold Frame.InOuter at hout
    rw [hc]
    intro e
    unfold Frame.outerBox at e
    simp only [Box.mk.injEq] at e
    omega
  · intro hl
    unfold mainBox
    rw [hc]
    exact fps_inline h hw hl
  · intro hl
    unfold mainBox
    rw [hc]
    exact fps_diag h hl

/-- The image `frameStrayAbove`: the stray pixel `(3, 0)` is in line with the
frame, the coarse box reaches up to row 0 and the refined box is the frame. -/
theorem frame_stray_boxes_witness :
    FramePlusStray frameStrayAbove sampleFrame 3 0 ∧ InLine sampleFrame 3 0 ∧
    coarseScan frameStrayAbove = ⟨2, 0, 4, 4⟩ ∧
    mainBox frameStrayAbove = sampleFrame.outerBox :=
  ⟨frameStray_plus sampleFrame 7 7 3 0 (by decide) (by decide) (by decide) (by decide),
    Or.inl (by decide),
    (frame_stray_boxes frameStrayAbove sampleFrame 3 0
      (frameStray_plus sampleFrame 7 7 3 0 (by decide) (by decide) (by decide) (by decide))
      (by decide)).1,
    (frame_stray_boxes frameStrayAbove sampleFrame 3 0
      (frameStray_plus sampleFrame 7 7 3 0 (by decide) (by decide) (by decide) (by decide))
      (by decide)).2.2.1 (Or.inl (by decide))⟩

/-- The image `frameStrayDiag` holds the frame `[2, 4] × [2, 4]` and the
isolated stray pixel `(0, 0)` outside it; its refined box is `(0, 0, 4, 4)`, which
still includes the stray pixel and is not the outer rectangle of the frame. -/
theorem frame_stray_diag_not_ignored :
    FramePlusStray frameStrayDiag sampleFrame 0 0 ∧
    (sampleFrame.x0 < sampleFrame.x1 ∧ sampleFrame.y0 < sampleFrame.y1) ∧
    coarseScan frameStrayDiag = ⟨0, 0, 4, 4⟩ ∧
    mainBox frameStrayDiag = ⟨0, 0, 4, 4⟩ ∧
    mainBox frameStrayDiag ≠ sampleFrame.outerBox :=
  ⟨frameStray_plus sampleFrame 7 7 0 0 (by decide) (by decide) (by decide) (by decide),
    by decide, by decide, by decide, by decide⟩

/-! ## Uniform images and the crop -/

theorem Rect_of_le (x0 y0 x1 y1 : Int) (hx : x0 ≤ x1) (hy : y0 ≤ y1) :
    Rect x0 y0 x1 y1 = { Min := ⟨x0, y0⟩, Max := ⟨x1, y1⟩ } := by
  unfold Rect
  rw [if_neg (by omega), if_neg (by omega)]

theorem Intersect_self (r : Rectangle) (hx : r.Min.X < r.Max.X) (hy : r.Min.Y < r.Max.Y) :
    r.Intersect r = r := by
  unfold Rectangle.Intersect Rectangle.Empty
  simp only [lt_irrefl, if_false, gt_iff_lt, ge_iff_le, Bool.or_eq_true, decide_eq_true_eq]
  rw [if_neg (by omega)]

/-- A box with `maxX < minX` and `maxY < minY`: none of the four refinement
loops runs an iteration. -/
theorem refine_inverted (img : Image) (b : Box) (hx : b.maxX < b.minX) (hy : b.maxY < b.minY) :
    refine img b = b := by
  have s1 : span b.minY b.maxY = 0 := by unfold span; omega
  have s2 : span b.minX b.maxX = 0 := by unfold span; omega
  unfold refine
  simp only [s1, s2, firstUp, firstDown]

theorem scanRowSingle_none (img : Image) (y : Int) (n : Nat) (x : Int) (b : Box)
    (h : ∀ u, x ≤ u → u < x + (n : Int) → isBlack (img.At u y) = false) :
    scanRowSingle img y n x b = b := by
  induction n generalizing x with
  | zero => rfl
  | succ n ih =>
    have h0 : isBlack (img.At x y) = false := h x (le_refl _) (by push_cast; omega)
    simp only [scanRowSingle, scanPixelSingle, h0, Bool.false_eq_true, if_false]
    exact ih (x + 1) (fun u h1 h2 => h u (by omega) (by push_cast; omega))

theorem scanRowsSingle_none (img : Image) (n : Nat) (y : Int) (b : Box)
    (h : ∀ u v, y ≤ v → v < y + (n : Int) → img.Bounds.Min.X ≤ u → u < img.Bounds.Max.X →
      isBlack (img.At u v) = false) :
    scanRowsSingle img n y b = b := by
  induction n generalizing y with
  | zero => rfl
  | succ n ih =>
    simp only [scanRowsSingle]
    rw [scanRowSingle_none img y _ _ b
      (fun u h1 h2 => h u y (le_refl _) (by push_cast; omega) h1 (by omega))]
    exact ih (y + 1) (fun u v h1 h2 h3 h4 => h u v (by omega) (by push_cast; omega) h3 h4)

/-- Without a border pixel the single-pass scan leaves the initial box. -/
theorem singlePassScan_eq_init (img : Image) (h : ∀ x y, ¬ BorderPixel img x y) :
    singlePassScan img = initBox img := by
  unfold singlePassScan
  refine scanRowsSingle_none img _ _ _ ?_
  intro u v h1 h2 h3 h4
  have hnb := h u v
  unfold BorderPixel InBounds at hnb
  cases hk : isBlack (img.At u v) with
  | false => rfl
  | true => exact absurd ⟨⟨h3, h4, h1, by omega⟩, hk⟩ hnb

/-- C6: when the bounds are non-empty and every pixel is a border pixel, the
coarse box and the refined box of `main.go` are both
`(bounds.Min.X, bounds.Min.Y, bounds.Max.X - 1, bounds.Max.Y - 1)`, the crop
rectangle is the full image bounds, and the cropped image has the bounds and the
pixels of the input. -/
theorem all_border_boxes (img : Image) (hne : NonEmptyBounds img)
    (hb : ∀ x y, InBounds img x y → isBlack (img.At x y) = true) :
    coarseScan img =
      ⟨img.Bounds.Min.X, img.Bounds.Min.Y, img.Bounds.Max.X - 1, img.Bounds.Max.Y - 1⟩ ∧
    mainBox img =
      ⟨img.Bounds.Min.X, img.Bounds.Min.Y, img.Bounds.Max.X - 1, img.Bounds.Max.Y - 1⟩ ∧
    cropRect (mainBox img) = img.Bounds ∧
    (mainCrop img).Bounds = img.Bounds ∧
    (∀ x y, InBounds img x y → (mainCrop img).At x y = img.At x y) := by
  obtain ⟨n1, n2⟩ := hne
  have bp : ∀ x y, InBounds img x y → BorderPixel img x y := fun x y h => ⟨h, hb x y h⟩
  have hc : coarseScan img =
      ⟨img.Bounds.Min.X, img.Bounds.Min.Y, img.Bounds.Max.X - 1, img.Bounds.Max.Y - 1⟩ := by
    refine coarseScan_eq_of img _ _ _ _ ?_ ?_ ?_ ?_ ?_
    · rintro x y ⟨⟨h1, h2, h3, h4⟩, _⟩
      omega
    · exact ⟨img.Bounds.Min.Y, bp _ _ ⟨by omega, by omega, by omega, by omega⟩⟩
    · exact ⟨img.Bounds.Min.Y, bp _ _ ⟨by omega, by omega, by omega, by omega⟩⟩
    · exact ⟨img.Bounds.Min.X, bp _ _ ⟨by omega, by omega, by omega, by omega⟩⟩
    · exact ⟨img.Bounds.Min.X, bp _ _ ⟨by omega, by omega, by omega, by omega⟩⟩
  have hm : mainBox img =
      ⟨img.Bounds.Min.X, img.Bounds.Min.Y, img.Bounds.Max.X - 1, img.Bounds.Max.Y - 1⟩ := by
    unfold mainBox
    rw [hc]
    refine refine_fixed img _ (by dsimp only; omega) (by dsimp only; omega) ?_ ?_ ?_ ?_
    · intro x h1 h2
      dsimp only at h1 h2 ⊢
      exact hb _ _ ⟨by omega, by omega, by omega, by omega⟩
    · intro x h1 h2
      dsimp only at h1 h2 ⊢
      exact hb _ _ ⟨by omega, by omega, by omega, by omega⟩
    · intro y h1 h2
      dsimp only at h1 h2 ⊢
      exact hb _ _ ⟨by omega, by omega, by omega, by omega⟩
    · intro y h1 h2
      dsimp only at h1 h2 ⊢
      exact hb _ _ ⟨by omega, by omega, by omega, by omega⟩
  have hr : cropRect (mainBox img) = img.Bounds := by
    rw [hm]
    unfold cropRect
    dsimp only
    rw [Rect_of_le _ _ _ _ (by omega) (by omega)]
    simp only [sub_add_cancel]
  have hs : (mainCrop img).Bounds = img.Bounds := by
    unfold mainCrop SubImage
    dsimp only
    rw [hr, Intersect_self _ n1 n2]
  refine ⟨hc, hm, hr, hs, ?_⟩
  intro x y hxy
  unfold mainCrop SubImage
  dsimp only
  rw [hr, Intersect_self _ n1 n2]
  obtain ⟨h1, h2, h3, h4⟩ := hxy
  have hin : Point.In ⟨x, y⟩ img.Bounds = true := by
    unfold Point.In
    simp only [Bool.and_eq_true, decide_eq_true_eq]
    exact ⟨⟨⟨h1, h2⟩, h3⟩, h4⟩
  rw [if_pos hin]

/-- The image `solid3`: both boxes are `(0, 0, 2, 2)` and the crop is the whole
image. -/
theorem all_border_boxes_witness :
    NonEmptyBounds solid3 ∧
    coarseScan solid3 = ⟨0, 0, 2, 2⟩ ∧ mainBox solid3 = ⟨0, 0, 2, 2⟩ ∧
    cropRect (mainBox solid3) = solid3.Bounds ∧
    (mainCrop solid3).Bounds = solid3.Bounds ∧
    (∀ x y, InBounds solid3 x y → (mainCrop solid3).At x y = solid3.At x y) :=
  ⟨by decide, all_border_boxes solid3 (by decide) (fun _ _ _ => rfl)⟩

/-- C7: when the bounds are non-empty and the image has no border pixel, the
coarse box is `(bounds.Max.X, bounds.Max.Y, bounds.Min.X, bounds.Min.Y)`, so
`minX > maxX` and `minY > maxY`; each of the four refinement loops of `main.go`
has an empty range (zero iterations) and the box is left unchanged.  The
single-pass scan of `crop-image.go` ends with the same box. -/
theorem no_border_boxes (img : Image) (hne : NonEmptyBounds img)
    (hb : ∀ x y, ¬ BorderPixel img x y) :
    coarseScan img =
      ⟨img.Bounds.Max.X, img.Bounds.Max.Y, img.Bounds.Min.X, img.Bounds.Min.Y⟩ ∧
    (coarseScan img).minX > (coarseScan img).maxX ∧
    (coarseScan img).minY > (coarseScan img).maxY ∧
    span (coarseScan img).minY (coarseScan img).maxY = 0 ∧
    span (mainBox img).minY (coarseScan img).maxY = 0 ∧
    span (coarseScan img).minX (coarseScan img).maxX = 0 ∧
    span (mainBox img).minX (coarseScan img).maxX = 0 ∧
    mainBox img = coarseScan img ∧
    singlePassScan img = coarseScan img := by
  obtain ⟨n1, n2⟩ := hne
  have hc : coarseScan img = initBox img := coarseScan_eq_init img hb
  have hm : mainBox img = coarseScan img := by
    unfold mainBox
    rw [hc]
    exact refine_inverted img _ (by simp only [initBox]; omega) (by simp only [initBox]; omega)
  rw [hm, singlePassScan_eq_init img hb, hc]
  refine ⟨rfl, ?_, ?_, ?_, ?_, ?_, ?_, rfl, rfl⟩ <;> simp only [initBox, span] <;> omega

/-- The image `blank2`: the box stays at `(2, 2, 0, 0)`. -/
theorem no_border_boxes_witness :
    NonEmptyBounds blank2 ∧ (∀ x y, ¬ BorderPixel blank2 x y) ∧
    coarseScan blank2 = ⟨2, 2, 0, 0⟩ ∧
    (coarseScan blank2).minX > (coarseScan blank2).maxX ∧
    (coarseScan blank2).minY > (coarseScan blank2).maxY ∧
    span (coarseScan blank2).minY (coarseScan blank2).maxY = 0 ∧
    span (mainBox blank2).minY (coarseScan blank2).maxY = 0 ∧
    span (coarseScan blank2).minX (coarseScan blank2).maxX = 0 ∧
    span (mainBox blank2).minX (coarseScan blank2).maxX = 0 ∧
    mainBox blank2 = coarseScan blank2 ∧
    singlePassScan blank2 = coarseScan blank2 :=
  ⟨by decide, fun _ _ h => Bool.noConfusion h.2,
    no_border_boxes blank2 (by decide) (fun _ _ h => Bool.noConfusion h.2)⟩

/-- C8 (as amended): after the refinement of `main.go`, rows `minY` and `maxY` are
border at every `x` in `[minX, maxX]` provided some row of the coarse box is
border across the coarse `[minX, maxX]`, and columns `minX` and `maxX` are border
at every `y` in `[minY, maxY]` provided some column of the coarse box is border
across the refined `[minY, maxY]`. -/
theorem refined_edges_full (img : Image) :
    ((∃ y, (coarseScan img).minY ≤ y ∧ y ≤ (coarseScan img).maxY ∧
        RowFull img y (coarseScan img).minX (coarseScan img).maxX) →
      RowFull img (mainBox img).minY (mainBox img).minX (mainBox img).maxX ∧
      RowFull img (mainBox img).maxY (mainBox img).minX (mainBox img).maxX) ∧
    ((∃ x, (coarseScan img).minX ≤ x ∧ x ≤ (coarseScan img).maxX ∧
        ColFull img x (mainBox img).minY (mainBox img).maxY) →
      ColFull img (mainBox img).minX (mainBox img).minY (mainBox img).maxY ∧
      ColFull img (mainBox img).maxX (mainBox img).minY (mainBox img).maxY) :=
  ⟨refine_rows_full img (coarseScan img), refine_cols_full img (coarseScan img)⟩

/-- The refined box of `frameStrayAbove` is the frame, and its four edges are
border. -/
theorem refined_edges_full_witness :
    mainBox frameStrayAbove = ⟨2, 2, 4, 4⟩ ∧
    (RowFull frameStrayAbove (mainBox frameStrayAbove).minY (mainBox frameStrayAbove).minX
        (mainBox frameStrayAbove).maxX ∧
      RowFull frameStrayAbove (mainBox frameStrayAbove).maxY (mainBox frameStrayAbove).minX
        (mainBox frameStrayAbove).maxX) ∧
    (ColFull frameStrayAbove (mainBox frameStrayAbove).minX (mainBox frameStrayAbove).minY
        (mainBox frameStrayAbove).maxY ∧
      ColFull frameStrayAbove (mainBox frameStrayAbove).maxX (mainBox frameStrayAbove).minY
        (mainBox frameStrayAbove).maxY) :=
  ⟨by decide,
    (refined_edges_full frameStrayAbove).1
      ⟨2, by decide, by decide, (isValidBorder_row_iff _ _ _ _).1 (by decide)⟩,
    (refined_edges_full frameStrayAbove).2
      ⟨2, by decide, by decide, (isValidBorder_col_iff _ _ _ _).1 (by decide)⟩⟩

/-- The image `diag2` has border pixels, its refined box is `(0, 0, 1, 1)`, and
the top row of that box is not border at `x = 1`: the edges of the refined box
are not all border. -/
theorem refined_edges_not_full :
    (∃ x y, BorderPixel diag2 x y) ∧ mainBox diag2 = ⟨0, 0, 1, 1⟩ ∧
    ¬ EdgesFull diag2 (mainBox diag2) :=
  ⟨⟨0, 0, by decide⟩, by decide,
    fun h => absurd ((edgesCheck_iff diag2 (mainBox diag2)).2 h) (by decide)⟩

/-- C9 (as amended): for an image with at least one border pixel, the refined
box of `main.go` lies inside the coarse box, and every border pixel lies in the
refined box exactly when the refinement trimmed nothing (the refined box is the
coarse box). -/
theorem refined_contains_iff (img : Image) (h : ∃ x y, BorderPixel img x y) :
    ((coarseScan img).minX ≤ (mainBox img).minX ∧ (mainBox img).maxX ≤ (coarseScan img).maxX ∧
      (coarseScan img).minY ≤ (mainBox img).minY ∧
      (mainBox img).maxY ≤ (coarseScan img).maxY) ∧
    ((∀ x y, BorderPixel img x y →
        (mainBox img).minX ≤ x ∧ x ≤ (mainBox img).maxX ∧
        (mainBox img).minY ≤ y ∧ y ≤ (mainBox img).maxY) ↔
      mainBox img = coarseScan img) := by
  have w := refine_within img (coarseScan img)
  refine ⟨w, ?_, ?_⟩
  · intro hall
    obtain ⟨e1, e2, e3, e4⟩ := coarseScan_extremes img h
    obtain ⟨y1, hy1⟩ := e1.1
    obtain ⟨y2, hy2⟩ := e2.1
    obtain ⟨x3, hx3⟩ := e3.1
    obtain ⟨x4, hx4⟩ := e4.1
    have a1 := hall _ _ hy1
    have a2 := hall _ _ hy2
    have a3 := hall _ _ hx3
    have a4 := hall _ _ hx4
    obtain ⟨w1, w2, w3, w4⟩ := w
    unfold mainBox at *
    cases hc : coarseScan img with
    | mk a c b d =>
      rw [hc] at w1 w2 w3 w4 a1 a2 a3 a4
      dsimp only at w1 w2 w3 w4 a1 a2 a3 a4
      exact Box.eq_of (by omega) (by omega) (by omega) (by omega)
  · intro e x y hxy
    rw [e]
    exact coarseScan_cover img x y hxy

/-- The image `frameOnly` has a border pixel; there the refinement trims
nothing and every border pixel is in the refined box. -/
theorem refined_contains_iff_witness :
    (∃ x y, BorderPixel frameOnly x y) ∧
    ((coarseScan frameOnly).minX ≤ (mainBox frameOnly).minX ∧
      (mainBox frameOnly).maxX ≤ (coarseScan frameOnly).maxX ∧
      (coarseScan frameOnly).minY ≤ (mainBox frameOnly).minY ∧
      (mainBox frameOnly).maxY ≤ (coarseScan frameOnly).maxY) ∧
    ((∀ x y, BorderPixel frameOnly x y →
        (mainBox frameOnly).minX ≤ x ∧ x ≤ (mainBox frameOnly).maxX ∧
        (mainBox frameOnly).minY ≤ y ∧ y ≤ (mainBox frameOnly).maxY) ↔
      mainBox frameOnly = coarseScan frameOnly) :=
  ⟨⟨2, 2, by decide⟩, refined_contains_iff frameOnly ⟨2, 2, by decide⟩⟩

/-- The image `notch` has the border pixel `(0, 0)`, and its refined box
`(0, 1, 1, 1)` starts at row 1: a border pixel lies outside the refined box. -/
theorem refined_misses_border_pixel :
    BorderPixel notch 0 0 ∧ mainBox notch = ⟨0, 1, 1, 1⟩ ∧
    ¬ (∀ x y, BorderPixel notch x y →
        (mainBox notch).minX ≤ x ∧ x ≤ (mainBox notch).maxX ∧
        (mainBox notch).minY ≤ y ∧ y ≤ (mainBox notch).maxY) :=
  ⟨by decide, by decide, fun h => absurd (h 0 0 (by decide)).2.2.1 (by decide)⟩

/-- The two row scans together: with a qualifying row in the box, `minY` and
`maxY` end on the least and the greatest one; without, both are unchanged. -/
theorem refine_rows_outermost (img : Image) (b : Box) :
    (IsLeast {y | b.minY ≤ y ∧ y ≤ b.maxY ∧ RowFull img y b.minX b.maxX} (refine img b).minY ∧
      IsGreatest {y | b.minY ≤ y ∧ y ≤ b.maxY ∧ RowFull img y b.minX b.maxX}
        (refine img b).maxY) ∨
    ((∀ y, b.minY ≤ y → y ≤ b.maxY → ¬ RowFull img y b.minX b.maxX) ∧
      (refine img b).minY = b.minY ∧ (refine img b).maxY = b.maxY) := by
  obtain ⟨h1, h2, _, _⟩ := refine_cases img b
  rcases h1 with least | ⟨hn, e⟩
  · left
    refine ⟨least, ?_⟩
    rcases h2 with h | ⟨hn, _⟩
    · exact ⟨⟨le_trans least.1.1 h.1.1, h.1.2.1, h.1.2.2⟩,
        fun y hy => h.2 ⟨least.2 hy, hy.2.1, hy.2.2⟩⟩
    · exact absurd least.1.2.2 (hn _ (le_refl _) least.1.2.1)
  · right
    refine ⟨hn, e, ?_⟩
    rcases h2 with h | ⟨_, e2⟩
    · exact absurd h.1.2.2 (hn _ (by rw [e] at h; exact h.1.1) h.1.2.1)
    · exact e2

/-- The two column scans together: with a qualifying column in the box, `minX`
and `maxX` end on the least and the greatest one; without, both are unchanged. -/
theorem refine_cols_outermost (img : Image) (b : Box) :
    (IsLeast {x | b.minX ≤ x ∧ x ≤ b.maxX ∧
          ColFull img x (refine img b).minY (refine img b).maxY} (refine img b).minX ∧
      IsGreatest {x | b.minX ≤ x ∧ x ≤ b.maxX ∧
          ColFull img x (refine img b).minY (refine img b).maxY} (refine img b).maxX) ∨
    ((∀ x, b.minX ≤ x → x ≤ b.maxX →
        ¬ ColFull img x (refine img b).minY (refine img b).maxY) ∧
      (refine img b).minX = b.minX ∧ (refine img b).maxX = b.maxX) := by
  obtain ⟨_, _, h3, h4⟩ := refine_cases img b
  rcases h3 with least | ⟨hn, e⟩
  · left
    refine ⟨least, ?_⟩
    rcases h4 with h | ⟨hn, _⟩
    · exact ⟨⟨le_trans least.1.1 h.1.1, h.1.2.1, h.1.2.2⟩,
        fun x hx => h.2 ⟨least.2 hx, hx.2.1, hx.2.2⟩⟩
    · exact absurd least.1.2.2 (hn _ (le_refl _) least.1.2.1)
  · right
    refine ⟨hn, e, ?_⟩
    rcases h4 with h | ⟨_, e2⟩
    · exact absurd h.1.2.2 (hn _ (by rw [e] at h; exact h.1.1) h.1.2.1)
    · exact e2

/-- C10 (as amended): the refinement of `main.go` trims each edge onto the
outermost qualifying row or column, not the innermost.  When some row of the
coarse box is border across the coarse `[minX, maxX]`, refined `minY` is the least
and refined `maxY` the greatest such row; otherwise both keep their coarse
values.  When some column of the coarse box is border across the refined
`[minY, maxY]`, refined `minX` is the least and refined `maxX` the greatest such
column; otherwise both keep their coarse values.  So every qualifying row lies
in `[refined minY, refined maxY]` and every qualifying column in
`[refined minX, refined maxX]`. -/
theorem refined_outermost (img : Image) :
    ((IsLeast {y | (coarseScan img).minY ≤ y ∧ y ≤ (coarseScan img).maxY ∧
          RowFull img y (coarseScan img).minX (coarseScan img).maxX} (mainBox img).minY ∧
        IsGreatest {y | (coarseScan img).minY ≤ y ∧ y ≤ (coarseScan img).maxY ∧
          RowFull img y (coarseScan img).minX (coarseScan img).maxX} (mainBox img).maxY) ∨
      ((∀ y, (coarseScan img).minY ≤ y → y ≤ (coarseScan img).maxY →
          ¬ RowFull img y (coarseScan img).minX (coarseScan img).maxX) ∧
        (mainBox img).minY = (coarseScan img).minY ∧
        (mainBox img).maxY = (coarseScan img).maxY)) ∧
    ((IsLeast {x | (coarseScan img).minX ≤ x ∧ x ≤ (coarseScan img).maxX ∧
          ColFull img x (mainBox img).minY (mainBox img).maxY} (mainBox img).minX ∧
        IsGreatest {x | (coarseScan img).minX ≤ x ∧ x ≤ (coarseScan img).maxX ∧
          ColFull img x (mainBox img).minY (mainBox img).maxY} (mainBox img).maxX) ∨
      ((∀ x, (coarseScan img).minX ≤ x → x ≤ (coarseScan img).maxX →
          ¬ ColFull img x (mainBox img).minY (mainBox img).maxY) ∧
        (mainBox img).minX = (coarseScan img).minX ∧
        (mainBox img).maxX = (coarseScan img).maxX)) ∧
    (∀ y, (coarseScan img).minY ≤ y → y ≤ (coarseScan img).maxY →
      RowFull img y (coarseScan img).minX (coarseScan img).maxX →
      (mainBox img).minY ≤ y ∧ y ≤ (mainBox img).maxY) ∧
    (∀ x, (coarseScan img).minX ≤ x → x ≤ (coarseScan img).maxX →
      ColFull img x (mainBox img).minY (mainBox img).maxY →
      (mainBox img).minX ≤ x ∧ x ≤ (mainBox img).maxX) := by
  have hr := refine_rows_outermost img (coarseScan img)
  have hc := refine_cols_outermost img (coarseScan img)
  refine ⟨hr, hc, ?_, ?_⟩
  · intro y a1 a2 a3
    rcases hr with ⟨l, g⟩ | ⟨hn, _, _⟩
    · exact ⟨l.2 ⟨a1, a2, a3⟩, g.2 ⟨a1, a2, a3⟩⟩
    · exact absurd a3 (hn y a1 a2)
  · intro x a1 a2 a3
    rcases hc with ⟨l, g⟩ | ⟨hn, _, _⟩
    · exact ⟨l.2 ⟨a1, a2, a3⟩, g.2 ⟨a1, a2, a3⟩⟩
    · exact absurd a3 (hn x a1 a2)

/-- The image `frameStrayAbove`: the coarse box `(2, 0, 4, 4)` starts at the
stray pixel's row 0, rows 2 and 4 are the least and greatest qualifying rows,
and the refined box `(2, 2, 4, 4)` has its top edge on row 2, not on row 0. -/
theorem refined_outermost_witness :
    coarseScan frameStrayAbove = ⟨2, 0, 4, 4⟩ ∧ mainBox frameStrayAbove = ⟨2, 2, 4, 4⟩ ∧
    IsLeast {y | (coarseScan frameStrayAbove).minY ≤ y ∧ y ≤ (coarseScan frameStrayAbove).maxY ∧
      RowFull frameStrayAbove y (coarseScan frameStrayAbove).minX
        (coarseScan frameStrayAbove).maxX} (mainBox frameStrayAbove).minY ∧
    IsGreatest {y | (coarseScan frameStrayAbove).minY ≤ y ∧
      y ≤ (coarseScan frameStrayAbove).maxY ∧
      RowFull frameStrayAbove y (coarseScan frameStrayAbove).minX
        (coarseScan frameStrayAbove).maxX} (mainBox frameStrayAbove).maxY :=
  ⟨by decide, by decide,
    (refined_outermost frameStrayAbove).1.elim id
      (fun hn => absurd ((isValidBorder_row_iff _ _ _ _).1 (by decide))
        (hn.1 2 (by decide) (by decide)))⟩

/-- The refined box of the two-pixel-thick frame `thickOnly` is `(0, 0, 4, 4)`,
and the rectangle `(1, 1, 3, 3)` properly inside it has four border edges. -/
theorem refined_not_innermost :
    mainBox thickOnly = ⟨0, 0, 4, 4⟩ ∧
    ProperlyInside ⟨1, 1, 3, 3⟩ ⟨0, 0, 4, 4⟩ ∧
    EdgesFull thickOnly ⟨1, 1, 3, 3⟩ :=
  ⟨(frame_boxes_of thickOnly thickFrame (by decide) (by decide)
      (fun x y _ => frameImage_black 5 5 thickFrame x y)).2,
    by decide, (edgesCheck_iff thickOnly ⟨1, 1, 3, 3⟩).1 (by decide)⟩

/-! ## Order and position of the boxes -/

theorem coarseScan_ordered (img : Image) (h : ∃ x y, BorderPixel img x y) :
    (coarseScan img).minX ≤ (coarseScan img).maxX ∧
    (coarseScan img).minY ≤ (coarseScan img).maxY := by
  obtain ⟨x, y, hxy⟩ := h
  have c := coarseScan_cover img x y hxy
  omega

theorem coarseScan_in_bounds (img : Image) (h : ∃ x y, BorderPixel img x y) :
    img.Bounds.Min.X ≤ (coarseScan img).minX ∧ (coarseScan img).maxX < img.Bounds.Max.X ∧
    img.Bounds.Min.Y ≤ (coarseScan img).minY ∧ (coarseScan img).maxY < img.Bounds.Max.Y := by
  obtain ⟨e1, e2, e3, e4⟩ := coarseScan_extremes img h
  obtain ⟨_, ⟨a1, _, _, _⟩, _⟩ := e1.1
  obtain ⟨_, ⟨_, a2, _, _⟩, _⟩ := e2.1
  obtain ⟨_, ⟨_, _, a3, _⟩, _⟩ := e3.1
  obtain ⟨_, ⟨_, _, _, a4⟩, _⟩ := e4.1
  exact ⟨a1, a2, a3, a4⟩

/-- Refinement of a well-ordered box gives a well-ordered box. -/
theorem refine_ordered (img : Image) (b : Box) (hx : b.minX ≤ b.maxX) (hy : b.minY ≤ b.maxY) :
    (refine img b).minX ≤ (refine img b).maxX ∧ (refine img b).minY ≤ (refine img b).maxY := by
  obtain ⟨h1, h2, h3, h4⟩ := refine_cases img b
  constructor
  · rcases h4 with h | ⟨_, e⟩
    · exact h.1.1
    · rw [e]
      rcases h3 with h | ⟨_, e'⟩
      · exact h.1.2.1
      · rw [e']; exact hx
  · rcases h2 with h | ⟨_, e⟩
    · exact h.1.1
    · rw [e]
      rcases h1 with h | ⟨_, e'⟩
      · exact h.1.2.1
      · rw [e']; exact hy

/-- C13: for an image with at least one border pixel, the refined box of
`main.go` is well-ordered and lies inside the coarse box:
coarse `minX` ≤ refined `minX` ≤ refined `maxX` ≤ coarse `maxX`, and the same for
`y`. -/
theorem refined_ordered_within (img : Image) (h : ∃ x y, BorderPixel img x y) :
    (coarseScan img).minX ≤ (mainBox img).minX ∧ (mainBox img).minX ≤ (mainBox img).maxX ∧
    (mainBox img).maxX ≤ (coarseScan img).maxX ∧
    (coarseScan img).minY ≤ (mainBox img).minY ∧ (mainBox img).minY ≤ (mainBox img).maxY ∧
    (mainBox img).maxY ≤ (coarseScan img).maxY := by
  obtain ⟨o1, o2⟩ := coarseScan_ordered img h
  obtain ⟨w1, w2, w3, w4⟩ := refine_within img (coarseScan img)
  obtain ⟨r1, r2⟩ := refine_ordered img (coarseScan img) o1 o2
  exact ⟨w1, r1, w2, w3, r2, w4⟩

/-- The image `notch`: coarse box `(0, 0, 1, 1)`, refined box `(0, 1, 1, 1)`. -/
theorem refined_ordered_within_witness :
    (∃ x y, BorderPixel notch x y) ∧
    coarseScan notch = ⟨0, 0, 1, 1⟩ ∧ mainBox notch = ⟨0, 1, 1, 1⟩ ∧
    ((coarseScan notch).minX ≤ (mainBox notch).minX ∧
      (mainBox notch).minX ≤ (mainBox notch).maxX ∧
      (mainBox notch).maxX ≤ (coarseScan notch).maxX ∧
      (coarseScan notch).minY ≤ (mainBox notch).minY ∧
      (mainBox notch).minY ≤ (mainBox notch).maxY ∧
      (mainBox notch).maxY ≤ (coarseScan notch).maxY) :=
  ⟨⟨0, 0, by decide⟩, by decide, by decide, refined_ordered_within notch ⟨0, 0, by decide⟩⟩

/-! ## The validator -/

theorem wrap64_of_range (x : Int) (h1 : minInt64 ≤ x) (h2 : x ≤ maxInt64) : wrap64 x = x := by
  unfold wrap64
  unfold minInt64 at h1
  unfold maxInt64 at h2
  omega

/-- Below the largest 64-bit integer the row loop on 64-bit integers leaves
the loop within `span s e + 1` tests and returns what the counted loop
returns. -/
theorem rowLoop64_eq (img : Image) (y e : Int) (he : e < maxInt64) (n : Nat) (x : Int)
    (fuel : Nat) (hn : span x e = n) (hx : minInt64 ≤ x) (hf : n < fuel) :
    rowLoop64 img y e fuel x = some (rowLoop img y n x) := by
  induction n generalizing x fuel with
  | zero =>
    obtain ⟨f, rfl⟩ : ∃ f, fuel = f + 1 := ⟨fuel - 1, by omega⟩
    have hlt : ¬ x ≤ e := by unfold span at hn; omega
    simp only [rowLoop64, rowLoop, if_neg hlt]
  | succ n ih =>
    obtain ⟨f, rfl⟩ : ∃ f, fuel = f + 1 := ⟨fuel - 1, by omega⟩
    have hle : x ≤ e := by unfold span at hn; omega
    have hw : wrap64 (x + 1) = x + 1 :=
      wrap64_of_range _ (by unfold minInt64 at *; omega) (by omega)
    simp only [rowLoop64, rowLoop, if_pos hle, hw]
    by_cases hb : isBlack (img.At x y) = true
    · simp only [hb, Bool.not_true, Bool.false_eq_true, if_false]
      exact ih (x + 1) f (by unfold span at *; omega) (by unfold minInt64 at *; omega)
        (by omega)
    · have hb' : isBlack (img.At x y) = false := by simpa using hb
      simp only [hb', Bool.not_false, if_true]

/-- The same for the column loop. -/
theorem colLoop64_eq (img : Image) (x e : Int) (he : e < maxInt64) (n : Nat) (y : Int)
    (fuel : Nat) (hn : span y e = n) (hy : minInt64 ≤ y) (hf : n < fuel) :
    colLoop64 img x e fuel y = some (colLoop img x n y) := by
  induction n generalizing y fuel with
  | zero =>
    obtain ⟨f, rfl⟩ : ∃ f, fuel = f + 1 := ⟨fuel - 1, by omega⟩
    have hlt : ¬ y ≤ e := by unfold span at hn; omega
    simp only [colLoop64, colLoop, if_neg hlt]
  | succ n ih =>
    obtain ⟨f, rfl⟩ : ∃ f, fuel = f + 1 := ⟨fuel - 1, by omega⟩
    have hle : y ≤ e := by unfold span at hn; omega
    have hw : wrap64 (y + 1) = y + 1 :=
      wrap64_of_range _ (by unfold minInt64 at *; omega) (by omega)
    simp only [colLoop64, colLoop, if_pos hle, hw]
    by_cases hb : isBlack (img.At x y) = true
    · simp only [hb, Bool.not_true, Bool.false_eq_true, if_false]
      exact ih (y + 1) f (by unfold span at *; omega) (by unfold minInt64 at *; omega)
        (by omega)
    · have hb' : isBlack (img.At x y) = false := by simpa using hb
      simp only [hb', Bool.not_false, if_true]

/-- With the end coordinate below the largest 64-bit integer, `isValidBorder` on
64-bit integers returns, given `span s e + 1` or more tests of the loop
condition, what the counted model returns. -/
theorem isValidBorder64_eq (validType : ValidType) (img : Image) (c s e : Int) (fuel : Nat)
    (hs : minInt64 ≤ s) (he : e < maxInt64) (hf : span s e < fuel) :
    isValidBorder64 validType img c s e fuel = some (isValidBorder validType img c s e) := by
  unfold isValidBorder64 isValidBorder
  by_cases h1 : validType = Row
  · rw [if_pos h1, if_pos h1]
    exact rowLoop64_eq img c e he _ s fuel rfl hs hf
  · rw [if_neg h1, if_neg h1]
    by_cases h2 : validType = Column
    · rw [if_pos h2, if_pos h2]
      exact colLoop64_eq img c e he _ s fuel rfl hs hf
    · rw [if_neg h2, if_neg h2]

/-- C14 (as amended): for 64-bit arguments with the end coordinate `e` below
the largest 64-bit integer, `isValidBorder(Row, img, y, s, e)` returns (within
`span s e + 1` tests of the loop condition) `true` exactly when every pixel
`(x, y)` with `s ≤ x ≤ e` is border and `false` otherwise, and
`isValidBorder(Column, img, x, s, e)` likewise over the pixels `(x, y)` with
`s ≤ y ≤ e`; on an empty span (`e < s`) both return `true` at the first test, and
any `validType` other than `Row` and `Column` gives `false`. -/
theorem isValidBorder64_spec :
    (∀ (img : Image) (y s e : Int) (fuel : Nat),
      minInt64 ≤ s → e < maxInt64 → span s e < fuel →
      (isValidBorder64 Row img y s e fuel = some true ↔
        ∀ x, s ≤ x → x ≤ e → isBlack (img.At x y) = true) ∧
      (isValidBorder64 Row img y s e fuel = some false ↔
        ¬ ∀ x, s ≤ x → x ≤ e → isBlack (img.At x y) = true)) ∧
    (∀ (img : Image) (x s e : Int) (fuel : Nat),
      minInt64 ≤ s → e < maxInt64 → span s e < fuel →
      (isValidBorder64 Column img x s e fuel = some true ↔
        ∀ y, s ≤ y → y ≤ e → isBlack (img.At x y) = true) ∧
      (isValidBorder64 Column img x s e fuel = some false ↔
        ¬ ∀ y, s ≤ y → y ≤ e → isBlack (img.At x y) = true)) ∧
    (∀ (img : Image) (c s e : Int) (fuel : Nat), e < s →
      isValidBorder64 Row img c s e (fuel + 1) = some true ∧
      isValidBorder64 Column img c s e (fuel + 1) = some true) ∧
    (∀ (validType : ValidType) (img : Image) (c s e : Int) (fuel : Nat),
      validType ≠ Row → validType ≠ Column →
      isValidBorder64 validType img c s e fuel = some false) := by
  refine ⟨?_, ?_, ?_, ?_⟩
  · intro img y s e fuel hs he hf
    rw [isValidBorder64_eq Row img y s e fuel hs he hf]
    have hiff := isValidBorder_row_iff img y s e
    unfold RowFull at hiff
    cases hv : isValidBorder Row img y s e with
    | true =>
      rw [hv] at hiff
      simp only [true_iff] at hiff
      exact ⟨⟨fun _ => hiff, fun _ => rfl⟩,
        ⟨fun h => Bool.noConfusion (Option.some.inj h), fun h => absurd hiff h⟩⟩
    | false =>
      rw [hv] at hiff
      have hnot : ¬ ∀ x, s ≤ x → x ≤ e → isBlack (img.At x y) = true :=
        fun h => Bool.noConfusion (hiff.2 h)
      exact ⟨⟨fun h => Bool.noConfusion (Option.some.inj h), fun h => absurd h hnot⟩,
        ⟨fun _ => hnot, fun _ => rfl⟩⟩
  · intro img x s e fuel hs he hf
    rw [isValidBorder64_eq Column img x s e fuel hs he hf]
    have hiff := isValidBorder_col_iff img x s e
    unfold ColFull at hiff
    cases hv : isValidBorder Column img x s e with
    | true =>
      rw [hv] at hiff
      simp only [true_iff] at hiff
      exact ⟨⟨fun _ => hiff, fun _ => rfl⟩,
        ⟨fun h => Bool.noConfusion (Option.some.inj h), fun h => absurd hiff h⟩⟩
    | false =>
      rw [hv] at hiff
      have hnot : ¬ ∀ y, s ≤ y → y ≤ e → isBlack (img.At x y) = true :=
        fun h => Bool.noConfusion (hiff.2 h)
      exact ⟨⟨fun h => Bool.noConfusion (Option.some.inj h), fun h => absurd h hnot⟩,
        ⟨fun _ => hnot, fun _ => rfl⟩⟩
  · intro img c s e fuel hlt
    have hn : ¬ s ≤ e := by omega
    unfold isValidBorder64
    rw [if_pos rfl, if_neg (by decide), if_pos rfl]
    simp only [rowLoop64, colLoop64, if_neg hn, and_self]
  · intro validType img c s e fuel h1 h2
    unfold isValidBorder64
    rw [if_neg h1, if_neg h2]

/-- The image `notch`: row 1 is border across `[0, 1]` and row 0 is not; the
function returns `true` and `false` within three tests. -/
theorem isValidBorder64_spec_witness :
    isValidBorder64 Row notch 1 0 1 3 = some true ∧
    isValidBorder64 Row notch 0 0 1 3 = some false ∧
    ((isValidBorder64 Row notch 1 0 1 3 = some true ↔
        ∀ x, (0 : Int) ≤ x → x ≤ 1 → isBlack (notch.At x 1) = true) ∧
      (isValidBorder64 Row notch 1 0 1 3 = some false ↔
        ¬ ∀ x, (0 : Int) ≤ x → x ≤ 1 → isBlack (notch.At x 1) = true)) :=
  ⟨by decide, by decide,
    isValidBorder64_spec.1 notch 1 0 1 3 (by decide) (by decide) (by decide)⟩

/-- With `s = e = maxInt64` every pixel `(x, 0)` of `edgePixel` with `s ≤ x ≤ e` is
border, yet `isValidBorder(Row, edgePixel, 0, s, e)` returns `false`: after the
pixel at `maxInt64` the counter wraps around to `minInt64`, the test `x <= e` still
holds, and the pixel there is not border.  No number of tests makes it return
`true`. -/
theorem isValidBorder64_wraps :
    (∀ x, maxInt64 ≤ x → x ≤ maxInt64 → isBlack (edgePixel.At x 0) = true) ∧
    wrap64 (maxInt64 + 1) = minInt64 ∧
    isValidBorder64 Row edgePixel 0 maxInt64 maxInt64 2 = some false ∧
    (∀ fuel, isValidBorder64 Row edgePixel 0 maxInt64 maxInt64 fuel ≠ some true) := by
  refine ⟨?_, by decide, by decide, ?_⟩
  · intro x h1 h2
    have e : x = maxInt64 := le_antisymm h2 h1
    rw [e]
    decide
  · intro fuel
    rcases fuel with _ | _ | n
    · decide
    · decide
    · have e : isValidBorder64 Row edgePixel 0 maxInt64 maxInt64 (n + 1 + 1) = some false := rfl
      rw [e]
      decide

/-! ## All four edges -/

/-- C15: in `main.go`, for an image with at least one border pixel, when the
top-row scan finds a fully-border row and the left-column scan finds a
fully-border column, the bottom-row scan and the right-column scan find one too
(`maxY` and `maxX` are the greatest qualifying row and column of their ranges),
and all four edges of the final box are border over the span of the final
box. -/
theorem edges_full_of_top_left (img : Image) (h : ∃ x y, BorderPixel img x y)
    (htop : ∃ y, (coarseScan img).minY ≤ y ∧ y ≤ (coarseScan img).maxY ∧
      RowFull img y (coarseScan img).minX (coarseScan img).maxX)
    (hleft : ∃ x, (coarseScan img).minX ≤ x ∧ x ≤ (coarseScan img).maxX ∧
      ColFull img x (mainBox img).minY (mainBox img).maxY) :
    IsGreatest {y | (mainBox img).minY ≤ y ∧ y ≤ (coarseScan img).maxY ∧
      RowFull img y (coarseScan img).minX (coarseScan img).maxX} (mainBox img).maxY ∧
    IsGreatest {x | (mainBox img).minX ≤ x ∧ x ≤ (coarseScan img).maxX ∧
      ColFull img x (mainBox img).minY (mainBox img).maxY} (mainBox img).maxX ∧
    EdgesFull img (mainBox img) := by
  have _ := h
  obtain ⟨y0, hy1, hy2, hy3⟩ := htop
  obtain ⟨x0, hx1, hx2, hx3⟩ := hleft
  obtain ⟨h1, h2, h3, h4⟩ := refine_cases img (coarseScan img)
  obtain ⟨r1, r2⟩ := refine_rows_full img (coarseScan img) ⟨y0, hy1, hy2, hy3⟩
  obtain ⟨c1, c2⟩ := refine_cols_full img (coarseScan img) ⟨x0, hx1, hx2, hx3⟩
  unfold mainBox at *
  have top : IsLeast {y | (coarseScan img).minY ≤ y ∧ y ≤ (coarseScan img).maxY ∧
      RowFull img y (coarseScan img).minX (coarseScan img).maxX}
      (refine img (coarseScan img)).minY := by
    rcases h1 with h | ⟨hn, _⟩
    · exact h
    · exact absurd hy3 (hn y0 hy1 hy2)
  have lft : IsLeast {x | (coarseScan img).minX ≤ x ∧ x ≤ (coarseScan img).maxX ∧
      ColFull img x (refine img (coarseScan img)).minY (refine img (coarseScan img)).maxY}
      (refine img (coarseScan img)).minX := by
    rcases h3 with h | ⟨hn, _⟩
    · exact h
    · exact absurd hx3 (hn x0 hx1 hx2)
  refine ⟨?_, ?_, r1, r2, c1, c2⟩
  · rcases h2 with h | ⟨hn, _⟩
    · exact h
    · exact absurd top.1.2.2 (hn _ (le_refl _) top.1.2.1)
  · rcases h4 with h | ⟨hn, _⟩
    · exact h
    · exact absurd lft.1.2.2 (hn _ (le_refl _) lft.1.2.1)

/-- The image `frameOnly`: the top row and the left column of the frame
qualify, and the four edges of the refined box `(2, 2, 4, 4)` are border. -/
theorem edges_full_of_top_left_witness :
    (∃ x y, BorderPixel frameOnly x y) ∧ mainBox frameOnly = ⟨2, 2, 4, 4⟩ ∧
    EdgesFull frameOnly (mainBox frameOnly) :=
  ⟨⟨2, 2, by decide⟩, by decide,
    (edges_full_of_top_left frameOnly ⟨2, 2, by decide⟩
      ⟨2, by decide, by decide, (isValidBorder_row_iff _ _ _ _).1 (by decide)⟩
      ⟨2, by decide, by decide, (isValidBorder_col_iff _ _ _ _).1 (by decide)⟩).2.2⟩

/-! ## The single-pass scan of `crop-image.go` -/

theorem scanPixel_agree (img : Image) (x y : Int) (b s : Box)
    (h : s.minX = b.minX ∧ s.minY = b.minY ∧ s.maxX = b.maxX) :
    (scanPixelSingle img x y s).minX = (scanPixel img x y b).minX ∧
    (scanPixelSingle img x y s).minY = (scanPixel img x y b).minY ∧
    (scanPixelSingle img x y s).maxX = (scanPixel img x y b).maxX := by
  obtain ⟨h1, h2, h3⟩ := h
  unfold scanPixelSingle scanPixel
  by_cases hb : isBlack (img.At x y) = true
  · simp only [hb, if_true, h1, h2, h3, and_self]
  · simp only [hb, if_false, Bool.false_eq_true]
    exact ⟨h1, h2, h3⟩

theorem scanRow_agree (img : Image) (y : Int) (n : Nat) (x : Int) (b s : Box)
    (h : s.minX = b.minX ∧ s.minY = b.minY ∧ s.maxX = b.maxX) :
    (scanRowSingle img y n x s).minX = (scanRow img y n x b).minX ∧
    (scanRowSingle img y n x s).minY = (scanRow img y n x b).minY ∧
    (scanRowSingle img y n x s).maxX = (scanRow img y n x b).maxX := by
  induction n generalizing x b s with
  | zero => exact h
  | succ n ih =>
    simp only [scanRowSingle, scanRow]
    exact ih (x + 1) _ _ (scanPixel_agree img x y b s h)

theorem scanRows_agree (img : Image) (n : Nat) (y : Int) (b s : Box)
    (h : s.minX = b.minX ∧ s.minY = b.minY ∧ s.maxX = b.maxX) :
    (scanRowsSingle img n y s).minX = (scanRows img n y b).minX ∧
    (scanRowsSingle img n y s).minY = (scanRows img n y b).minY ∧
    (scanRowsSingle img n y s).maxX = (scanRows img n y b).maxX := by
  induction n generalizing y b s with
  | zero => exact h
  | succ n ih =>
    simp only [scanRowsSingle, scanRows]
    exact ih (y + 1) _ _ (scanRow_agree img y _ _ b s h)

/-- The two scans agree on `minX`, `minY` and `maxX`. -/
theorem singlePassScan_agree (img : Image) :
    (singlePassScan img).minX = (coarseScan img).minX ∧
    (singlePassScan img).minY = (coarseScan img).minY ∧
    (singlePassScan img).maxX = (coarseScan img).maxX :=
  scanRows_agree img _ _ _ _ ⟨rfl, rfl, rfl⟩

theorem SingleInvOn.congr {P Q : Int → Int → Prop} {img : Image} {b : Box}
    (hPQ : ∀ u v, P u v ↔ Q u v) (h : SingleInvOn P img b) : SingleInvOn Q img b := by
  have e : P = Q := by
    funext u v
    exact propext (hPQ u v)
  rw [← e]
  exact h

theorem visited_succ (img : Image) (y x u v : Int)
    (hx : img.Bounds.Min.X ≤ x ∧ x < img.Bounds.Max.X) (hy : img.Bounds.Min.Y ≤ y) :
    Visited img y (x + 1) u v ↔ Visited img y x u v ∨ (u = x ∧ v = y) := by
  unfold Visited
  omega

theorem scanPixelSingle_black (img : Image) (x y : Int) (b : Box)
    (hb : isBlack (img.At x y) = true) :
    (scanPixelSingle img x y b).minX = (if x < b.minX then x else b.minX) ∧
    (scanPixelSingle img x y b).maxY =
      (if y > b.maxY ∧ x = (if x < b.minX then x else b.minX) then y else b.maxY) := by
  unfold scanPixelSingle
  rw [if_pos hb]
  exact ⟨rfl, rfl⟩

/-- One step of the inner loop of `crop-image.go` keeps the invariant. -/
theorem singleInv_step (img : Image) (y x : Int) (b : Box)
    (hx : img.Bounds.Min.X ≤ x ∧ x < img.Bounds.Max.X) (hy : img.Bounds.Min.Y ≤ y)
    (h : SingleInv img y x b) : SingleInv img y (x + 1) (scanPixelSingle img x y b) := by
  unfold SingleInv at *
  have hrow : ∀ u v, Visited img y x u v → v ≤ y := by
    intro u v hv
    unfold Visited at hv
    omega
  by_cases hb : isBlack (img.At x y) = true
  · -- a border pixel
    have hnew : ∀ u v, (Visited img y (x + 1) u v ∧ isBlack (img.At u v) = true) ↔
        ((Visited img y x u v ∧ isBlack (img.At u v) = true) ∨ (u = x ∧ v = y)) := by
      intro u v
      rw [visited_succ img y x u v hx hy]
      constructor
      · rintro ⟨h1 | h1, h2⟩
        · exact Or.inl ⟨h1, h2⟩
        · exact Or.inr h1
      · rintro (⟨h1, h2⟩ | ⟨rfl, rfl⟩)
        · exact ⟨Or.inl h1, h2⟩
        · exact ⟨Or.inr ⟨rfl, rfl⟩, hb⟩
    refine SingleInvOn.congr (fun u v => (hnew u v).symm) ?_
    right
    obtain ⟨em, ey⟩ := scanPixelSingle_black img x y b hb
    rcases h with ⟨hn, e1, e2⟩ | ⟨l, g⟩
    · -- the first border pixel
      have c1 : x < b.minX := by omega
      rw [if_pos c1] at em ey
      have ey' : (scanPixelSingle img x y b).maxY = y := by
        rw [ey]
        by_cases hgt : y > b.maxY
        · rw [if_pos ⟨hgt, rfl⟩]
        · rw [if_neg (fun hh => hgt hh.1)]; omega
      rw [em, ey']
      constructor
      · refine ⟨⟨y, Or.inr ⟨rfl, rfl⟩⟩, ?_⟩
        rintro u ⟨v, hp | ⟨rfl, _⟩⟩
        · exact absurd hp (hn u v)
        · exact le_refl _
      · refine ⟨Or.inr ⟨rfl, rfl⟩, ?_⟩
        rintro v (hp | ⟨_, rfl⟩)
        · exact absurd hp (hn x v)
        · exact le_refl _
    · have gy : b.maxY ≤ y := hrow _ _ g.1.1
      by_cases c1 : x < b.minX
      · rw [if_pos c1] at em ey
        have ey' : (scanPixelSingle img x y b).maxY = y := by
          rw [ey]
          by_cases hgt : y > b.maxY
          · rw [if_pos ⟨hgt, rfl⟩]
          · rw [if_neg (fun hh => hgt hh.1)]; omega
        rw [em, ey']
        constructor
        · refine ⟨⟨y, Or.inr ⟨rfl, rfl⟩⟩, ?_⟩
          rintro u ⟨v, hp | ⟨rfl, _⟩⟩
          · exact le_trans (le_of_lt c1) (l.2 ⟨v, hp⟩)
          · exact le_refl _
        · refine ⟨Or.inr ⟨rfl, rfl⟩, ?_⟩
          rintro v (hp | ⟨_, rfl⟩)
          · have := l.2 ⟨v, hp⟩
            omega
          · exact le_refl _
      · rw [if_neg c1] at em ey
        by_cases c3 : x = b.minX
        · have ey' : (scanPixelSingle img x y b).maxY = y := by
            rw [ey]
            by_cases hgt : y > b.maxY
            · rw [if_pos ⟨hgt, c3⟩]
            · rw [if_neg (fun hh => hgt hh.1)]; omega
          rw [em, ey']
          constructor
          · refine ⟨l.1.imp (fun v hv => Or.inl hv), ?_⟩
            rintro u ⟨v, hp | ⟨rfl, _⟩⟩
            · exact l.2 ⟨v, hp⟩
            · omega
          · refine ⟨Or.inr ⟨c3.symm, rfl⟩, ?_⟩
            rintro v (hp | ⟨_, rfl⟩)
            · exact hrow _ _ hp.1
            · exact le_refl _
        · rw [if_neg (fun hh => c3 hh.2)] at ey
          rw [em, ey]
          constructor
          · refine ⟨l.1.imp (fun v hv => Or.inl hv), ?_⟩
            rintro u ⟨v, hp | ⟨rfl, _⟩⟩
            · exact l.2 ⟨v, hp⟩
            · omega
          · refine ⟨Or.inl g.1, ?_⟩
            rintro v (hp | ⟨hx', _⟩)
            · exact g.2 hp
            · exact absurd hx'.symm c3
  · -- not a border pixel: the state and the border pixels read are the same
    have hb' : isBlack (img.At x y) = false := by simpa using hb
    have e : scanPixelSingle img x y b = b := by
      unfold scanPixelSingle
      simp only [hb', Bool.false_eq_true, if_false]
    rw [e]
    refine SingleInvOn.congr ?_ h
    intro u v
    rw [visited_succ img y x u v hx hy]
    constructor
    · rintro ⟨h1, h2⟩
      exact ⟨Or.inl h1, h2⟩
    · rintro ⟨h1 | ⟨rfl, rfl⟩, h2⟩
      · exact ⟨h1, h2⟩
      · exact absurd h2 hb

/-- The inner loop of `crop-image.go` keeps the invariant. -/
theorem singleInv_row (img : Image) (y : Int) (n : Nat) (x : Int) (b : Box)
    (hx1 : img.Bounds.Min.X ≤ x) (hx2 : x + (n : Int) ≤ img.Bounds.Max.X)
    (hy : img.Bounds.Min.Y ≤ y) (h : SingleInv img y x b) :
    SingleInv img y (x + (n : Int)) (scanRowSingle img y n x b) := by
  induction n generalizing x b with
  | zero =>
    simp only [scanRowSingle, Nat.cast_zero, add_zero]
    exact h
  | succ n ih =>
    simp only [scanRowSingle]
    have hstep := singleInv_step img y x b ⟨hx1, by push_cast at hx2; omega⟩ hy h
    have := ih (x + 1) (scanPixelSingle img x y b) (by omega) (by push_cast at hx2 ⊢; omega)
      hstep
    have e : x + ((n + 1 : Nat) : Int) = x + 1 + (n : Int) := by push_cast; omega
    rw [e]
    exact this

/-- At the end of a row the invariant is the invariant at the start of the
next row. -/
theorem singleInv_next_row (img : Image) (y : Int) (b : Box)
    (h : SingleInv img y (img.Bounds.Min.X + ((img.Bounds.Max.X - img.Bounds.Min.X).toNat : Int))
      b) :
    SingleInv img (y + 1) img.Bounds.Min.X b := by
  unfold SingleInv at *
  refine SingleInvOn.congr ?_ h
  intro u v
  unfold Visited
  constructor
  · rintro ⟨h1, h2⟩
    exact ⟨by omega, h2⟩
  · rintro ⟨h1, h2⟩
    exact ⟨by omega, h2⟩

/-- The outer loop of `crop-image.go` keeps the invariant. -/
theorem singleInv_rows (img : Image) (n : Nat) (y : Int) (b : Box)
    (hy : img.Bounds.Min.Y ≤ y) (h : SingleInv img y img.Bounds.Min.X b) :
    SingleInv img (y + (n : Int)) img.Bounds.Min.X (scanRowsSingle img n y b) := by
  induction n generalizing y b with
  | zero =>
    simp only [scanRowsSingle, Nat.cast_zero, add_zero]
    exact h
  | succ n ih =>
    simp only [scanRowsSingle]
    have hrow : SingleInv img y
        (img.Bounds.Min.X + ((img.Bounds.Max.X - img.Bounds.Min.X).toNat : Int))
        (scanRowSingle img y (img.Bounds.Max.X - img.Bounds.Min.X).toNat img.Bounds.Min.X b) := by
      by_cases hw : img.Bounds.Min.X ≤ img.Bounds.Max.X
      · exact singleInv_row img y _ _ b (le_refl _) (by omega) hy h
      · have e : (img.Bounds.Max.X - img.Bounds.Min.X).toNat = 0 := by omega
        rw [e]
        simp only [scanRowSingle, Nat.cast_zero, add_zero]
        exact h
    have := ih (y + 1) _ (by omega) (singleInv_next_row img y _ hrow)
    have e : y + ((n + 1 : Nat) : Int) = y + 1 + (n : Int) := by push_cast; omega
    rw [e]
    exact this

/-- The state of the single-pass scan after the whole image. -/
theorem singlePassScan_inv (img : Image) :
    SingleInvOn (BorderPixel img) img (singlePassScan img) := by
  have h0 : SingleInv img img.Bounds.Min.Y img.Bounds.Min.X (initBox img) := by
    left
    refine ⟨?_, rfl, rfl⟩
    rintro u v ⟨hv, _⟩
    unfold Visited at hv
    omega
  have h := singleInv_rows img (img.Bounds.Max.Y - img.Bounds.Min.Y).toNat img.Bounds.Min.Y
    (initBox img) (le_refl _) h0
  unfold SingleInv at h
  unfold singlePassScan
  refine SingleInvOn.congr ?_ h
  intro u v
  unfold BorderPixel InBounds Visited
  constructor
  · rintro ⟨h1, h2⟩
    exact ⟨by omega, h2⟩
  · rintro ⟨h1, h2⟩
    exact ⟨by omega, h2⟩

/-- With a border pixel present, `maxY` of the single-pass scan is the greatest
`y` of a border pixel in the leftmost column that holds one. -/
theorem singlePassScan_maxY (img : Image) (h : ∃ x y, BorderPixel img x y) :
    IsGreatest {y | BorderPixel img (coarseScan img).minX y} (singlePassScan img).maxY := by
  obtain ⟨x0, y0, h0⟩ := h
  rcases singlePassScan_inv img with ⟨hn, _, _⟩ | ⟨_, g⟩
  · exact absurd h0 (hn x0 y0)
  · rw [(singlePassScan_agree img).1] at g
    exact g

/-- C16: the single-pass scan of `crop-image.go` agrees with the coarse scan of
`main.go` on `minX`, `minY` and `maxX` for every image; with a border pixel
present, its `maxY` is the greatest `y` of a border pixel in the leftmost column
that holds a border pixel, so `minY ≤ maxY ≤` coarse `maxY`, with equality exactly
when that column holds a border pixel in the lowest border row. -/
theorem singlePass_vs_coarse (img : Image) :
    ((singlePassScan img).minX = (coarseScan img).minX ∧
      (singlePassScan img).minY = (coarseScan img).minY ∧
      (singlePassScan img).maxX = (coarseScan img).maxX) ∧
    ((∃ x y, BorderPixel img x y) →
      IsLeast {x | ∃ y, BorderPixel img x y} (coarseScan img).minX ∧
      IsGreatest {y | BorderPixel img (coarseScan img).minX y} (singlePassScan img).maxY ∧
      (singlePassScan img).minY ≤ (singlePassScan img).maxY ∧
      (singlePassScan img).maxY ≤ (coarseScan img).maxY ∧
      ((singlePassScan img).maxY = (coarseScan img).maxY ↔
        BorderPixel img (coarseScan img).minX (coarseScan img).maxY)) := by
  refine ⟨singlePassScan_agree img, ?_⟩
  intro h
  have g := singlePassScan_maxY img h
  have c := coarseScan_cover img _ _ g.1
  refine ⟨(coarseScan_extremes img h).1, g, ?_, c.2.2.2, ?_, ?_⟩
  · rw [(singlePassScan_agree img).2.1]
    exact c.2.2.1
  · intro e
    rw [← e]
    exact g.1
  · intro hb
    have := g.2 hb
    omega

/-- The image `diag2`: the leftmost border column is column 0, whose only
border pixel is in row 0; the single-pass scan ends with `maxY = 0`, the coarse
scan with `maxY = 1`. -/
theorem singlePass_vs_coarse_witness :
    (∃ x y, BorderPixel diag2 x y) ∧
    singlePassScan diag2 = ⟨0, 0, 1, 0⟩ ∧ coarseScan diag2 = ⟨0, 0, 1, 1⟩ ∧
    IsGreatest {y | BorderPixel diag2 (coarseScan diag2).minX y} (singlePassScan diag2).maxY ∧
    (singlePassScan diag2).maxY ≤ (coarseScan diag2).maxY :=
  ⟨⟨0, 0, by decide⟩, by decide, by decide,
    ((singlePass_vs_coarse diag2).2 ⟨0, 0, by decide⟩).2.1,
    ((singlePass_vs_coarse diag2).2 ⟨0, 0, by decide⟩).2.2.2.1⟩

/-! ## The crop rectangle of the two programs -/

theorem Rect_eq (x0 y0 x1 y1 : Int) :
    Rect x0 y0 x1 y1 =
      { Min := ⟨if x0 > x1 then x1 else x0, if y0 > y1 then y1 else y0⟩,
        Max := ⟨if x0 > x1 then x0 else x1, if y0 > y1 then y0 else y1⟩ } := by
  unfold Rect
  split_ifs <;> rfl

/-- Intersecting a non-empty rectangle with a rectangle that contains it changes
nothing. -/
theorem Intersect_of_inside (r s : Rectangle) (h1 : s.Min.X ≤ r.Min.X)
    (h2 : s.Min.Y ≤ r.Min.Y) (h3 : r.Max.X ≤ s.Max.X) (h4 : r.Max.Y ≤ s.Max.Y)
    (hx : r.Min.X < r.Max.X) (hy : r.Min.Y < r.Max.Y) : r.Intersect s = r := by
  obtain ⟨⟨a, b⟩, ⟨c, d⟩⟩ := r
  dsimp only at h1 h2 h3 h4 hx hy
  unfold Rectangle.Intersect Rectangle.Empty
  simp only [gt_iff_lt, if_neg (not_lt.2 h1), if_neg (not_lt.2 h2), if_neg (not_lt.2 h3),
    if_neg (not_lt.2 h4), ge_iff_le, Bool.or_eq_true, decide_eq_true_eq]
  rw [if_neg (by omega)]

/-- The crop rectangle of a well-ordered box inside the bounds: `image.Rect`
swaps nothing, the rectangle is not empty, and `SubImage` clips nothing. -/
theorem cropRect_of_safe (img : Image) (b : Box) (h : SafeBox img b) :
    cropRect b = { Min := ⟨b.minX, b.minY⟩, Max := ⟨b.maxX + 1, b.maxY + 1⟩ } ∧
    (cropRect b).Empty = false ∧
    (cropRect b).Intersect img.Bounds = cropRect b := by
  obtain ⟨h1, h2, h3, h4, h5, h6⟩ := h
  have e : cropRect b = { Min := ⟨b.minX, b.minY⟩, Max := ⟨b.maxX + 1, b.maxY + 1⟩ } := by
    unfold cropRect
    exact Rect_of_le _ _ _ _ (by omega) (by omega)
  rw [e]
  refine ⟨rfl, ?_, ?_⟩
  · unfold Rectangle.Empty
    simp only [ge_iff_le, Bool.or_eq_false_iff, decide_eq_false_iff_not, not_le]
    constructor <;> omega
  · exact Intersect_of_inside _ _ h1 h4 (by dsimp only; omega) (by dsimp only; omega)
      (by dsimp only; omega) (by dsimp only; omega)

/-- The box of `main.go` is well-ordered and inside the bounds. -/
theorem mainBox_safe (img : Image) (h : ∃ x y, BorderPixel img x y) :
    SafeBox img (mainBox img) := by
  obtain ⟨o1, o2⟩ := coarseScan_ordered img h
  obtain ⟨b1, b2, b3, b4⟩ := coarseScan_in_bounds img h
  obtain ⟨w1, w2, w3, w4⟩ := refine_within img (coarseScan img)
  obtain ⟨r1, r2⟩ := refine_ordered img (coarseScan img) o1 o2
  unfold mainBox
  exact ⟨by omega, r1, by omega, by omega, r2, by omega⟩

/-- The box of `crop-image.go` is well-ordered and inside the bounds. -/
theorem singlePassScan_safe (img : Image) (h : ∃ x y, BorderPixel img x y) :
    SafeBox img (singlePassScan img) := by
  obtain ⟨o1, o2⟩ := coarseScan_ordered img h
  obtain ⟨b1, b2, b3, b4⟩ := coarseScan_in_bounds img h
  obtain ⟨a1, a2, a3⟩ := singlePassScan_agree img
  have g := singlePassScan_maxY img h
  have c := coarseScan_cover img _ _ g.1
  unfold SafeBox
  rw [a1, a2, a3]
  exact ⟨b1, o1, b2, b3, c.2.2.1, by omega⟩

/-- C12 (as amended): in both programs, for every image with at least one
border pixel, the crop rectangle handed to `SubImage` has `Min = (minX, minY)`
and exclusive `Max = (maxX + 1, maxY + 1)`. -/
theorem crop_rect_convention (img : Image) (h : ∃ x y, BorderPixel img x y) :
    cropRect (mainBox img) =
      { Min := ⟨(mainBox img).minX, (mainBox img).minY⟩,
        Max := ⟨(mainBox img).maxX + 1, (mainBox img).maxY + 1⟩ } ∧
    cropRect (singlePassScan img) =
      { Min := ⟨(singlePassScan img).minX, (singlePassScan img).minY⟩,
        Max := ⟨(singlePassScan img).maxX + 1, (singlePassScan img).maxY + 1⟩ } :=
  ⟨(cropRect_of_safe img _ (mainBox_safe img h)).1,
    (cropRect_of_safe img _ (singlePassScan_safe img h)).1⟩

/-- The image `notch`: `main.go` crops to `[0, 1, 2, 2)` and `crop-image.go` to
`[0, 0, 2, 2)`. -/
theorem crop_rect_convention_witness :
    (∃ x y, BorderPixel notch x y) ∧
    mainBox notch = ⟨0, 1, 1, 1⟩ ∧ cropRect (mainBox notch) = ⟨⟨0, 1⟩, ⟨2, 2⟩⟩ ∧
    singlePassScan notch = ⟨0, 0, 1, 1⟩ ∧ cropRect (singlePassScan notch) = ⟨⟨0, 0⟩, ⟨2, 2⟩⟩ ∧
    cropRect (mainBox notch) =
      { Min := ⟨(mainBox notch).minX, (mainBox notch).minY⟩,
        Max := ⟨(mainBox notch).maxX + 1, (mainBox notch).maxY + 1⟩ } ∧
    cropRect (singlePassScan notch) =
      { Min := ⟨(singlePassScan notch).minX, (singlePassScan notch).minY⟩,
        Max := ⟨(singlePassScan notch).maxX + 1, (singlePassScan notch).maxY + 1⟩ } :=
  ⟨⟨0, 0, by decide⟩, by decide, by decide, by decide, by decide,
    crop_rect_convention notch ⟨0, 0, by decide⟩⟩

/-- The image `blank2` has no border pixel; both programs end with the box
`(2, 2, 0, 0)`, and `image.Rect(2, 2, 1, 1)` is the rectangle `[1, 1, 2, 2)`, whose
`Min` is not `(minX, minY)` and whose `Max` is not `(maxX + 1, maxY + 1)`. -/
theorem crop_rect_swapped :
    mainBox blank2 = ⟨2, 2, 0, 0⟩ ∧ singlePassScan blank2 = ⟨2, 2, 0, 0⟩ ∧
    cropRect (mainBox blank2) = ⟨⟨1, 1⟩, ⟨2, 2⟩⟩ ∧
    cropRect (singlePassScan blank2) = ⟨⟨1, 1⟩, ⟨2, 2⟩⟩ ∧
    (cropRect (mainBox blank2)).Min ≠ ⟨(mainBox blank2).minX, (mainBox blank2).minY⟩ ∧
    (cropRect (mainBox blank2)).Max ≠
      ⟨(mainBox blank2).maxX + 1, (mainBox blank2).maxY + 1⟩ :=
  ⟨by decide, by decide, by decide, by decide, by decide, by decide⟩

/-- C17: for every image with at least one border pixel, the final box of both
programs satisfies `bounds.Min.X ≤ minX ≤ maxX < bounds.Max.X` and
`bounds.Min.Y ≤ minY ≤ maxY < bounds.Max.Y`; the crop rectangle
`[minX, minY, maxX + 1, maxY + 1)` is what `image.Rect` returns without a swap, it
is not empty, and intersecting it with the image bounds changes nothing. -/
theorem crop_rect_safe (img : Image) (h : ∃ x y, BorderPixel img x y) :
    (SafeBox img (mainBox img) ∧
      cropRect (mainBox img) =
        { Min := ⟨(mainBox img).minX, (mainBox img).minY⟩,
          Max := ⟨(mainBox img).maxX + 1, (mainBox img).maxY + 1⟩ } ∧
      (cropRect (mainBox img)).Empty = false ∧
      (cropRect (mainBox img)).Intersect img.Bounds = cropRect (mainBox img)) ∧
    (SafeBox img (singlePassScan img) ∧
      cropRect (singlePassScan img) =
        { Min := ⟨(singlePassScan img).minX, (singlePassScan img).minY⟩,
          Max := ⟨(singlePassScan img).maxX + 1, (singlePassScan img).maxY + 1⟩ } ∧
      (cropRect (singlePassScan img)).Empty = false ∧
      (cropRect (singlePassScan img)).Intersect img.Bounds = cropRect (singlePassScan img)) :=
  ⟨⟨mainBox_safe img h, cropRect_of_safe img _ (mainBox_safe img h)⟩,
    ⟨singlePassScan_safe img h, cropRect_of_safe img _ (singlePassScan_safe img h)⟩⟩

/-- The image `diag2`: both boxes are inside the bounds `[0, 0, 2, 2)`. -/
theorem crop_rect_safe_witness :
    (∃ x y, BorderPixel diag2 x y) ∧
    SafeBox diag2 (mainBox diag2) ∧ (cropRect (mainBox diag2)).Empty = false ∧
    SafeBox diag2 (singlePassScan diag2) ∧ (cropRect (singlePassScan diag2)).Empty = false :=
  ⟨⟨0, 0, by decide⟩,
    (crop_rect_safe diag2 ⟨0, 0, by decide⟩).1.1,
    (crop_rect_safe diag2 ⟨0, 0, by decide⟩).1.2.2.1,
    (crop_rect_safe diag2 ⟨0, 0, by decide⟩).2.1,
    (crop_rect_safe diag2 ⟨0, 0, by decide⟩).2.2.2.1⟩

/-- The crop rectangle of the initial, inverted box. -/
theorem cropRect_init (img : Image) :
    (img.Bounds.Min.X + 2 ≤ img.Bounds.Max.X → img.Bounds.Min.Y + 2 ≤ img.Bounds.Max.Y →
      cropRect (initBox img) =
        { Min := ⟨img.Bounds.Min.X + 1, img.Bounds.Min.Y + 1⟩,
          Max := ⟨img.Bounds.Max.X, img.Bounds.Max.Y⟩ }) ∧
    (img.Bounds.Max.X = img.Bounds.Min.X + 1 ∨ img.Bounds.Max.Y = img.Bounds.Min.Y + 1 →
      (cropRect (initBox img)).Empty = true) := by
  unfold cropRect initBox
  dsimp only
  rw [Rect_eq]
  constructor
  · intro hx hy
    have cx : img.Bounds.Max.X > img.Bounds.Min.X + 1 := by omega
    have cy : img.Bounds.Max.Y > img.Bounds.Min.Y + 1 := by omega
    simp only [if_pos cx, if_pos cy]
  · intro hw
    unfold Rectangle.Empty
    simp only [ge_iff_le, Bool.or_eq_true, decide_eq_true_eq]
    rcases hw with hw | hw
    · left
      have cx : ¬ img.Bounds.Max.X > img.Bounds.Min.X + 1 := by omega
      simp only [if_neg cx]
      omega
    · right
      have cy : ¬ img.Bounds.Max.Y > img.Bounds.Min.Y + 1 := by omega
      simp only [if_neg cy]
      omega

/-- C18: for an image without border pixel whose width and height are both at
least 2, both programs end with the inverted box, `image.Rect` swaps its
coordinates, and the crop rectangle is
`[bounds.Min.X + 1, bounds.Min.Y + 1, bounds.Max.X, bounds.Max.Y)`: the image
written out is the input without its first row and first column.  When the
width or the height is 1 the crop rectangle is empty. -/
theorem no_border_crop (img : Image) (hne : NonEmptyBounds img)
    (hb : ∀ x y, ¬ BorderPixel img x y) :
    (img.Bounds.Min.X + 2 ≤ img.Bounds.Max.X → img.Bounds.Min.Y + 2 ≤ img.Bounds.Max.Y →
      cropRect (mainBox img) =
        { Min := ⟨img.Bounds.Min.X + 1, img.Bounds.Min.Y + 1⟩,
          Max := ⟨img.Bounds.Max.X, img.Bounds.Max.Y⟩ } ∧
      cropRect (singlePassScan img) =
        { Min := ⟨img.Bounds.Min.X + 1, img.Bounds.Min.Y + 1⟩,
          Max := ⟨img.Bounds.Max.X, img.Bounds.Max.Y⟩ } ∧
      (mainCrop img).Bounds =
        { Min := ⟨img.Bounds.Min.X + 1, img.Bounds.Min.Y + 1⟩,
          Max := ⟨img.Bounds.Max.X, img.Bounds.Max.Y⟩ } ∧
      (singleCrop img).Bounds =
        { Min := ⟨img.Bounds.Min.X + 1, img.Bounds.Min.Y + 1⟩,
          Max := ⟨img.Bounds.Max.X, img.Bounds.Max.Y⟩ } ∧
      (∀ x y, img.Bounds.Min.X + 1 ≤ x → x < img.Bounds.Max.X →
        img.Bounds.Min.Y + 1 ≤ y → y < img.Bounds.Max.Y →
        (mainCrop img).At x y = img.At x y ∧ (singleCrop img).At x y = img.At x y)) ∧
    (img.Bounds.Max.X = img.Bounds.Min.X + 1 ∨ img.Bounds.Max.Y = img.Bounds.Min.Y + 1 →
      (cropRect (mainBox img)).Empty = true ∧
      (cropRect (singlePassScan img)).Empty = true) := by
  obtain ⟨n1, n2⟩ := hne
  have hc : coarseScan img = initBox img := coarseScan_eq_init img hb
  have hm : mainBox img = initBox img := by
    unfold mainBox
    rw [hc]
    exact refine_inverted img _ (by simp only [initBox]; omega) (by simp only [initBox]; omega)
  have hs : singlePassScan img = initBox img := singlePassScan_eq_init img hb
  obtain ⟨k1, k2⟩ := cropRect_init img
  unfold mainCrop singleCrop
  rw [hm, hs]
  refine ⟨?_, fun hw => ⟨k2 hw, k2 hw⟩⟩
  intro hx hy
  have e := k1 hx hy
  have ei : (cropRect (initBox img)).Intersect img.Bounds = cropRect (initBox img) := by
    rw [e]
    exact Intersect_of_inside _ _ (by dsimp only; omega) (by dsimp only; omega)
      (by dsimp only; omega) (by dsimp only; omega) (by dsimp only; omega)
      (by dsimp only; omega)
  have eb : (SubImage img (cropRect (initBox img))).Bounds = cropRect (initBox img) := by
    unfold SubImage
    dsimp only
    exact ei
  have ea : ∀ x y, img.Bounds.Min.X + 1 ≤ x → x < img.Bounds.Max.X →
      img.Bounds.Min.Y + 1 ≤ y → y < img.Bounds.Max.Y →
      (SubImage img (cropRect (initBox img))).At x y = img.At x y := by
    intro x y a1 a2 a3 a4
    unfold SubImage
    dsimp only
    rw [ei, e]
    have hin : Point.In ⟨x, y⟩
        { Min := ⟨img.Bounds.Min.X + 1, img.Bounds.Min.Y + 1⟩,
          Max := ⟨img.Bounds.Max.X, img.Bounds.Max.Y⟩ } = true := by
      unfold Point.In
      simp only [Bool.and_eq_true, decide_eq_true_eq]
      exact ⟨⟨⟨a1, a2⟩, a3⟩, a4⟩
    rw [if_pos hin]
  exact ⟨e, e, eb.trans e, eb.trans e,
    fun x y a1 a2 a3 a4 => ⟨ea x y a1 a2 a3 a4, ea x y a1 a2 a3 a4⟩⟩

/-- The image `blank2` (2 × 2, no border pixel): both programs crop to
`[1, 1, 2, 2)`. -/
theorem no_border_crop_witness :
    NonEmptyBounds blank2 ∧ (∀ x y, ¬ BorderPixel blank2 x y) ∧
    cropRect (mainBox blank2) = ⟨⟨1, 1⟩, ⟨2, 2⟩⟩ ∧
    cropRect (singlePassScan blank2) = ⟨⟨1, 1⟩, ⟨2, 2⟩⟩ ∧
    (mainCrop blank2).Bounds = ⟨⟨1, 1⟩, ⟨2, 2⟩⟩ :=
  ⟨by decide, fun _ _ h => Bool.noConfusion h.2,
    ((no_border_crop blank2 (by decide) (fun _ _ h => Bool.noConfusion h.2)).1
      (by decide) (by decide)).1,
    ((no_border_crop blank2 (by decide) (fun _ _ h => Bool.noConfusion h.2)).1
      (by decide) (by decide)).2.1,
    ((no_border_crop blank2 (by decide) (fun _ _ h => Bool.noConfusion h.2)).1
      (by decide) (by decide)).2.2.1⟩

/-! ## Running the algorithm on its own output -/

theorem firstUp_congr (p q : Int → Bool) (cur : Int) (n : Nat) (i : Int)
    (h : ∀ k, i ≤ k → k < i + (n : Int) → p k = q k) :
    firstUp p cur n i = firstUp q cur n i := by
  induction n generalizing i with
  | zero => rfl
  | succ n ih =>
    simp only [firstUp]
    rw [h i (le_refl _) (by push_cast; omega),
      ih (i + 1) (fun k h1 h2 => h k (by omega) (by push_cast; omega))]

theorem firstDown_congr (p q : Int → Bool) (cur : Int) (n : Nat) (i : Int)
    (h : ∀ k, i - (n : Int) < k → k ≤ i → p k = q k) :
    firstDown p cur n i = firstDown q cur n i := by
  induction n generalizing i with
  | zero => rfl
  | succ n ih =>
    simp only [firstDown]
    rw [h i (by push_cast; omega) (le_refl _),
      ih (i - 1) (fun k h1 h2 => h k (by push_cast; omega) (by omega))]

theorem firstUp_congr_span (p q : Int → Bool) (cur s e : Int)
    (h : ∀ k, s ≤ k → k ≤ e → p k = q k) :
    firstUp p cur (span s e) s = firstUp q cur (span s e) s :=
  firstUp_congr p q cur _ s (fun k h1 h2 => h k h1 ((span_lt_iff s e k h1).1 h2))

theorem firstDown_congr_span (p q : Int → Bool) (cur s e : Int)
    (h : ∀ k, s ≤ k → k ≤ e → p k = q k) :
    firstDown p cur (span s e) e = firstDown q cur (span s e) e :=
  firstDown_congr p q cur _ e (fun k h1 h2 => h k ((span_gt_iff s e k h2).1 h1) h2)

theorem isValidBorder_row_congr (img img2 : Image) (y s e : Int)
    (h : ∀ x, s ≤ x → x ≤ e → isBlack (img.At x y) = isBlack (img2.At x y)) :
    isValidBorder Row img y s e = isValidBorder Row img2 y s e := by
  rw [Bool.eq_iff_iff, isValidBorder_row_iff, isValidBorder_row_iff]
  constructor
  · intro hf x h1 h2
    rw [← h x h1 h2]; exact hf x h1 h2
  · intro hf x h1 h2
    rw [h x h1 h2]; exact hf x h1 h2

theorem isValidBorder_col_congr (img img2 : Image) (x s e : Int)
    (h : ∀ y, s ≤ y → y ≤ e → isBlack (img.At x y) = isBlack (img2.At x y)) :
    isValidBorder Column img x s e = isValidBorder Column img2 x s e := by
  rw [Bool.eq_iff_iff, isValidBorder_col_iff, isValidBorder_col_iff]
  constructor
  · intro hf y h1 h2
    rw [← h y h1 h2]; exact hf y h1 h2
  · intro hf y h1 h2
    rw [h y h1 h2]; exact hf y h1 h2

/-- The refinement of a box reads only the pixels of that box. -/
theorem refine_congr (img img2 : Image) (b : Box)
    (h : ∀ x y, b.minX ≤ x → x ≤ b.maxX → b.minY ≤ y → y ≤ b.maxY →
      isBlack (img.At x y) = isBlack (img2.At x y)) :
    refine img2 b = refine img b := by
  obtain ⟨_, _, w3, w4⟩ := refine_within img b
  have e1 : firstUp (fun y => isValidBorder Row img2 y b.minX b.maxX) b.minY
      (span b.minY b.maxY) b.minY = (refine img b).minY :=
    firstUp_congr_span _ _ _ _ _
      (fun y h1 h2 => (isValidBorder_row_congr img img2 y _ _
        (fun x a1 a2 => h x y a1 a2 h1 h2)).symm)
  have e2 : firstDown (fun y => isValidBorder Row img2 y b.minX b.maxX) b.maxY
      (span (refine img b).minY b.maxY) b.maxY = (refine img b).maxY :=
    firstDown_congr_span _ _ _ _ _
      (fun y h1 h2 => (isValidBorder_row_congr img img2 y _ _
        (fun x a1 a2 => h x y a1 a2 (le_trans w3 h1) h2)).symm)
  have e3 : firstUp (fun x => isValidBorder Column img2 x (refine img b).minY
      (refine img b).maxY) b.minX (span b.minX b.maxX) b.minX = (refine img b).minX :=
    firstUp_congr_span _ _ _ _ _
      (fun x h1 h2 => (isValidBorder_col_congr img img2 x _ _
        (fun y a1 a2 => h x y h1 h2 (le_trans w3 a1) (le_trans a2 w4))).symm)
  obtain ⟨w1, _, _, _⟩ := refine_within img b
  have e4 : firstDown (fun x => isValidBorder Column img2 x (refine img b).minY
      (refine img b).maxY) b.maxX (span (refine img b).minX b.maxX) b.maxX =
      (refine img b).maxX :=
    firstDown_congr_span _ _ _ _ _
      (fun x h1 h2 => (isValidBorder_col_congr img img2 x _ _
        (fun y a1 a2 => h x y (le_trans w1 h1) h2 (le_trans w3 a1) (le_trans a2 w4))).symm)
  exact refine_eq img2 b _ _ _ _ e1 e2 e3 e4

/-- The bounds and the pixels of the image cut out for a box inside the bounds. -/
theorem SubImage_of_safe (img : Image) (b : Box) (h : SafeBox img b) :
    (SubImage img (cropRect b)).Bounds =
      { Min := ⟨b.minX, b.minY⟩, Max := ⟨b.maxX + 1, b.maxY + 1⟩ } ∧
    (∀ x y, b.minX ≤ x → x ≤ b.maxX → b.minY ≤ y → y ≤ b.maxY →
      (SubImage img (cropRect b)).At x y = img.At x y) := by
  obtain ⟨e, _, ei⟩ := cropRect_of_safe img b h
  have eb : (SubImage img (cropRect b)).Bounds = cropRect b := by
    unfold SubImage
    dsimp only
    exact ei
  refine ⟨eb.trans e, ?_⟩
  intro x y a1 a2 a3 a4
  unfold SubImage
  dsimp only
  rw [ei, e]
  have hin : Point.In ⟨x, y⟩
      { Min := ⟨b.minX, b.minY⟩, Max := ⟨b.maxX + 1, b.maxY + 1⟩ } = true := by
    unfold Point.In
    simp only [Bool.and_eq_true, decide_eq_true_eq]
    exact ⟨⟨⟨a1, by omega⟩, a3⟩, by omega⟩
  rw [if_pos hin]

/-- The coarse box of the image cut out for a box `b` is `b` itself when each
side of `b` holds a border pixel. -/
theorem coarseScan_SubImage (img : Image) (b : Box) (h : SafeBox img b)
    (h1 : ∃ y, b.minY ≤ y ∧ y ≤ b.maxY ∧ isBlack (img.At b.minX y) = true)
    (h2 : ∃ y, b.minY ≤ y ∧ y ≤ b.maxY ∧ isBlack (img.At b.maxX y) = true)
    (h3 : ∃ x, b.minX ≤ x ∧ x ≤ b.maxX ∧ isBlack (img.At x b.minY) = true)
    (h4 : ∃ x, b.minX ≤ x ∧ x ≤ b.maxX ∧ isBlack (img.At x b.maxY) = true) :
    coarseScan (SubImage img (cropRect b)) = b := by
  obtain ⟨eb, ea⟩ := SubImage_of_safe img b h
  obtain ⟨_, s2, _, _, s5, _⟩ := h
  have bp : ∀ x y, b.minX ≤ x → x ≤ b.maxX → b.minY ≤ y → y ≤ b.maxY →
      isBlack (img.At x y) = true → BorderPixel (SubImage img (cropRect b)) x y := by
    intro x y a1 a2 a3 a4 hk
    refine ⟨?_, by rw [ea x y a1 a2 a3 a4]; exact hk⟩
    unfold InBounds
    rw [eb]
    dsimp only
    omega
  have e := coarseScan_eq_of (SubImage img (cropRect b)) b.minX b.minY b.maxX b.maxY ?_ ?_ ?_
    ?_ ?_
  · rw [e]
  · rintro x y ⟨hin, _⟩
    unfold InBounds at hin
    rw [eb] at hin
    dsimp only at hin
    omega
  · obtain ⟨y, a1, a2, a3⟩ := h1
    exact ⟨y, bp _ _ (le_refl _) s2 a1 a2 a3⟩
  · obtain ⟨y, a1, a2, a3⟩ := h2
    exact ⟨y, bp _ _ s2 (le_refl _) a1 a2 a3⟩
  · obtain ⟨x, a1, a2, a3⟩ := h3
    exact ⟨x, bp _ _ a1 a2 (le_refl _) s5 a3⟩
  · obtain ⟨x, a1, a2, a3⟩ := h4
    exact ⟨x, bp _ _ a1 a2 s5 (le_refl _) a3⟩

/-- When a row of box `b` qualifies, refining the refined box changes nothing. -/
theorem refine_refine_of_row (img : Image) (b : Box) (hx : b.minX ≤ b.maxX)
    (hrow : ∃ y, b.minY ≤ y ∧ y ≤ b.maxY ∧ RowFull img y b.minX b.maxX) :
    refine img (refine img b) = refine img b := by
  obtain ⟨r1, r2⟩ := refine_rows_full img b hrow
  obtain ⟨_, _, h3, h4⟩ := refine_cases img b
  obtain ⟨w1, w2, _, _⟩ := refine_within img b
  have hy : b.minY ≤ b.maxY := by
    obtain ⟨y, a1, a2, _⟩ := hrow
    omega
  obtain ⟨o1, o2⟩ := refine_ordered img b hx hy
  have e1 := firstUp_eq_of_isLeast
    (fun y => isValidBorder_row_iff img y (refine img b).minX (refine img b).maxX)
    (refine img b).minY (refine img b).minY (refine img b).maxY (refine img b).minY
    ⟨⟨le_refl _, o2, r1⟩, fun y hy => hy.1⟩
  have e2 := firstDown_eq_of_isGreatest
    (fun y => isValidBorder_row_iff img y (refine img b).minX (refine img b).maxX)
    (refine img b).maxY (refine img b).minY (refine img b).maxY (refine img b).maxY
    ⟨⟨o2, le_refl _, r2⟩, fun y hy => hy.2.1⟩
  have e3 : firstUp (fun x => isValidBorder Column img x (refine img b).minY
      (refine img b).maxY) (refine img b).minX
      (span (refine img b).minX (refine img b).maxX) (refine img b).minX =
      (refine img b).minX := by
    rcases h3 with h | ⟨hn, _⟩
    · exact firstUp_eq_of_isLeast (fun x => isValidBorder_col_iff img x _ _) _ _ _ _
        ⟨⟨le_refl _, o1, h.1.2.2⟩, fun x hx => hx.1⟩
    · exact firstUp_eq_of_none (fun x => isValidBorder_col_iff img x _ _) _ _ _
        (fun x a1 a2 => hn x (le_trans w1 a1) (le_trans a2 w2))
  have e4 : firstDown (fun x => isValidBorder Column img x (refine img b).minY
      (refine img b).maxY) (refine img b).maxX
      (span (refine img b).minX (refine img b).maxX) (refine img b).maxX =
      (refine img b).maxX := by
    rcases h4 with h | ⟨hn, _⟩
    · exact firstDown_eq_of_isGreatest (fun x => isValidBorder_col_iff img x _ _) _ _ _ _
        ⟨⟨o1, le_refl _, h.1.2.2⟩, fun x hx => hx.2.1⟩
    · exact firstDown_eq_of_none (fun x => isValidBorder_col_iff img x _ _) _ _ _
        (fun x a1 a2 => hn x a1 (le_trans a2 w2))
  exact refine_eq img (refine img b) _ _ _ _ e1 e2 e3 e4

theorem scanPixel_translate (img : Image) (dx dy x y : Int) (b : Box) :
    scanPixel (translate img dx dy) x y (b.shift dx dy) =
      (scanPixel img (x + dx) (y + dy) b).shift dx dy := by
  unfold scanPixel translate Box.shift
  dsimp only
  by_cases hb : isBlack (img.At (x + dx) (y + dy)) = true
  · rw [if_pos hb, if_pos hb]
    simp only [Box.mk.injEq]
    refine ⟨?_, ?_, ?_, ?_⟩ <;> split_ifs <;> omega
  · rw [if_neg hb, if_neg hb]

theorem scanRow_translate (img : Image) (dx dy y : Int) (n : Nat) (x : Int) (b : Box) :
    scanRow (translate img dx dy) y n x (b.shift dx dy) =
      (scanRow img (y + dy) n (x + dx) b).shift dx dy := by
  induction n generalizing x b with
  | zero => rfl
  | succ n ih =>
    simp only [scanRow]
    rw [scanPixel_translate, ih (x + 1), show x + 1 + dx = x + dx + 1 by omega]

theorem scanRows_translate (img : Image) (dx dy : Int) (n : Nat) (y : Int) (b : Box) :
    scanRows (translate img dx dy) n y (b.shift dx dy) =
      (scanRows img n (y + dy) b).shift dx dy := by
  induction n generalizing y b with
  | zero => rfl
  | succ n ih =>
    simp only [scanRows]
    have e1 : ((translate img dx dy).Bounds.Max.X - (translate img dx dy).Bounds.Min.X).toNat =
        (img.Bounds.Max.X - img.Bounds.Min.X).toNat := by
      simp only [translate]
      congr 1
      omega
    have e2 : (translate img dx dy).Bounds.Min.X + dx = img.Bounds.Min.X := by
      simp only [translate]
      omega
    rw [e1, scanRow_translate, e2, ih (y + 1), show y + 1 + dy = y + dy + 1 by omega]

/-- The coarse scan commutes with moving the origin. -/
theorem coarseScan_translate (img : Image) (dx dy : Int) :
    coarseScan (translate img dx dy) = (coarseScan img).shift dx dy := by
  unfold coarseScan
  have e0 : initBox (translate img dx dy) = (initBox img).shift dx dy := rfl
  have e1 : ((translate img dx dy).Bounds.Max.Y - (translate img dx dy).Bounds.Min.Y).toNat =
      (img.Bounds.Max.Y - img.Bounds.Min.Y).toNat := by
    simp only [translate]
    congr 1
    omega
  have e2 : (translate img dx dy).Bounds.Min.Y + dy = img.Bounds.Min.Y := by
    simp only [translate]
    omega
  rw [e0, e1, scanRows_translate, e2]

theorem isValidBorder_row_translate (img : Image) (dx dy y s e : Int) :
    isValidBorder Row (translate img dx dy) y s e =
      isValidBorder Row img (y + dy) (s + dx) (e + dx) := by
  rw [Bool.eq_iff_iff, isValidBorder_row_iff, isValidBorder_row_iff]
  unfold RowFull
  constructor
  · intro h x h1 h2
    have := h (x - dx) (by omega) (by omega)
    simp only [translate, sub_add_cancel] at this
    exact this
  · intro h x h1 h2
    exact h (x + dx) (by omega) (by omega)

theorem isValidBorder_col_translate (img : Image) (dx dy x s e : Int) :
    isValidBorder Column (translate img dx dy) x s e =
      isValidBorder Column img (x + dx) (s + dy) (e + dy) := by
  rw [Bool.eq_iff_iff, isValidBorder_col_iff, isValidBorder_col_iff]
  unfold ColFull
  constructor
  · intro h y h1 h2
    have := h (y - dy) (by omega) (by omega)
    simp only [translate, sub_add_cancel] at this
    exact this
  · intro h y h1 h2
    exact h (y + dy) (by omega) (by omega)

theorem firstUp_translate (p q : Int → Bool) (d : Int) (hpq : ∀ k, p (k - d) = q k)
    (cur : Int) (n : Nat) (i : Int) :
    firstUp p (cur - d) n (i - d) = firstUp q cur n i - d := by
  induction n generalizing i with
  | zero => rfl
  | succ n ih =>
    simp only [firstUp]
    rw [hpq i, show i - d + 1 = i + 1 - d by omega, ih (i + 1)]
    split_ifs <;> rfl

theorem firstDown_translate (p q : Int → Bool) (d : Int) (hpq : ∀ k, p (k - d) = q k)
    (cur : Int) (n : Nat) (i : Int) :
    firstDown p (cur - d) n (i - d) = firstDown q cur n i - d := by
  induction n generalizing i with
  | zero => rfl
  | succ n ih =>
    simp only [firstDown]
    rw [hpq i, show i - d - 1 = i - 1 - d by omega, ih (i - 1)]
    split_ifs <;> rfl

theorem span_translate (s e d : Int) : span (s - d) (e - d) = span s e := by
  unfold span
  congr 1
  omega

/-- The refinement commutes with moving the origin. -/
theorem refine_translate (img : Image) (dx dy : Int) (b : Box) :
    refine (translate img dx dy) (b.shift dx dy) = (refine img b).shift dx dy := by
  have e1 : firstUp (fun y => isValidBorder Row (translate img dx dy) y (b.minX - dx)
      (b.maxX - dx)) (b.minY - dy) (span (b.minY - dy) (b.maxY - dy)) (b.minY - dy) =
      (refine img b).minY - dy := by
    rw [span_translate]
    exact firstUp_translate _ (fun y => isValidBorder Row img y b.minX b.maxX) dy
      (fun k => by
        simp only [isValidBorder_row_translate, sub_add_cancel]) _ _ _
  have e2 : firstDown (fun y => isValidBorder Row (translate img dx dy) y (b.minX - dx)
      (b.maxX - dx)) (b.maxY - dy) (span ((refine img b).minY - dy) (b.maxY - dy))
      (b.maxY - dy) = (refine img b).maxY - dy := by
    rw [span_translate]
    exact firstDown_translate _ (fun y => isValidBorder Row img y b.minX b.maxX) dy
      (fun k => by
        simp only [isValidBorder_row_translate, sub_add_cancel]) _ _ _
  have e3 : firstUp (fun x => isValidBorder Column (translate img dx dy) x
      ((refine img b).minY - dy) ((refine img b).maxY - dy)) (b.minX - dx)
      (span (b.minX - dx) (b.maxX - dx)) (b.minX - dx) = (refine img b).minX - dx := by
    rw [span_translate]
    exact firstUp_translate _
      (fun x => isValidBorder Column img x (refine img b).minY (refine img b).maxY) dx
      (fun k => by
        simp only [isValidBorder_col_translate, sub_add_cancel]) _ _ _
  have e4 : firstDown (fun x => isValidBorder Column (translate img dx dy) x
      ((refine img b).minY - dy) ((refine img b).maxY - dy)) (b.maxX - dx)
      (span ((refine img b).minX - dx) (b.maxX - dx)) (b.maxX - dx) =
      (refine img b).maxX - dx := by
    rw [span_translate]
    exact firstDown_translate _
      (fun x => isValidBorder Column img x (refine img b).minY (refine img b).maxY) dx
      (fun k => by
        simp only [isValidBorder_col_translate, sub_add_cancel]) _ _ _
  exact refine_eq (translate img dx dy) (b.shift dx dy) _ _ _ _ e1 e2 e3 e4

/-- The algorithm of `main.go` commutes with moving the origin. -/
theorem mainBox_translate (img : Image) (dx dy : Int) :
    mainBox (translate img dx dy) = (mainBox img).shift dx dy := by
  unfold mainBox
  rw [coarseScan_translate, refine_translate]

/-- The algorithm of `main.go` run on its own output, when a row of the coarse
box qualifies or the refinement trimmed nothing. -/
theorem mainBox_mainCrop (img : Image) (h : ∃ x y, BorderPixel img x y)
    (hq : (∃ y, (coarseScan img).minY ≤ y ∧ y ≤ (coarseScan img).maxY ∧
        RowFull img y (coarseScan img).minX (coarseScan img).maxX) ∨
      mainBox img = coarseScan img) :
    mainBox (mainCrop img) = mainBox img := by
  have hs := mainBox_safe img h
  obtain ⟨_, ea⟩ := SubImage_of_safe img (mainBox img) hs
  obtain ⟨o1, o2⟩ := coarseScan_ordered img h
  have s2 := hs.2.1
  have s5 := hs.2.2.2.2.1
  -- the coarse box of the output is the refined box of the input
  have hc : coarseScan (mainCrop img) = mainBox img := by
    unfold mainCrop
    rcases hq with hrow | he
    · obtain ⟨r1, r2⟩ := refine_rows_full img (coarseScan img) hrow
      have r1' : RowFull img (mainBox img).minY (mainBox img).minX (mainBox img).maxX := r1
      have r2' : RowFull img (mainBox img).maxY (mainBox img).minX (mainBox img).maxX := r2
      exact coarseScan_SubImage img (mainBox img) hs
        ⟨_, le_refl _, s5, r1' _ (le_refl _) s2⟩
        ⟨_, le_refl _, s5, r1' _ s2 (le_refl _)⟩
        ⟨_, le_refl _, s2, r1' _ (le_refl _) s2⟩
        ⟨_, le_refl _, s2, r2' _ (le_refl _) s2⟩
    · obtain ⟨e1, e2, e3, e4⟩ := coarseScan_extremes img h
      obtain ⟨y1, hy1⟩ := e1.1
      obtain ⟨y2, hy2⟩ := e2.1
      obtain ⟨x3, hx3⟩ := e3.1
      obtain ⟨x4, hx4⟩ := e4.1
      have c1 := coarseScan_cover img _ _ hy1
      have c2 := coarseScan_cover img _ _ hy2
      have c3 := coarseScan_cover img _ _ hx3
      have c4 := coarseScan_cover img _ _ hx4
      refine coarseScan_SubImage img (mainBox img) hs ?_ ?_ ?_ ?_
      · rw [he]; exact ⟨y1, c1.2.2.1, c1.2.2.2, hy1.2⟩
      · rw [he]; exact ⟨y2, c2.2.2.1, c2.2.2.2, hy2.2⟩
      · rw [he]; exact ⟨x3, c3.1, c3.2.1, hx3.2⟩
      · rw [he]; exact ⟨x4, c4.1, c4.2.1, hx4.2⟩
  -- refining it reads the same pixels, and changes nothing
  have hr : refine img (mainBox img) = mainBox img := by
    rcases hq with hrow | he
    · exact refine_refine_of_row img (coarseScan img) o1 hrow
    · rw [he]
      exact he
  have hcongr : refine (mainCrop img) (mainBox img) = refine img (mainBox img) :=
    refine_congr img (mainCrop img) (mainBox img)
      (fun x y a1 a2 a3 a4 => by
        unfold mainCrop
        rw [ea x y a1 a2 a3 a4])
  calc mainBox (mainCrop img) = refine (mainCrop img) (coarseScan (mainCrop img)) := rfl
    _ = refine (mainCrop img) (mainBox img) := by rw [hc]
    _ = refine img (mainBox img) := hcongr
    _ = mainBox img := hr

/-- C11 (as amended): for an image with at least one border pixel in which some
row of the coarse box is border across the coarse `[minX, maxX]`, or in which the
refinement trims nothing, running the algorithm of `main.go` on the image cut out
for the crop rectangle gives the same rectangle; on that image read back from
its PNG file, whose bounds start at `(0, 0)`, it gives the same rectangle seen
from the origin `(minX, minY)`. -/
theorem crop_idempotent (img : Image) (h : ∃ x y, BorderPixel img x y)
    (hq : (∃ y, (coarseScan img).minY ≤ y ∧ y ≤ (coarseScan img).maxY ∧
        RowFull img y (coarseScan img).minX (coarseScan img).maxX) ∨
      mainBox img = coarseScan img) :
    mainBox (mainCrop img) = mainBox img ∧
    mainBox (reDecoded (mainCrop img)) =
      (mainBox img).shift (mainBox img).minX (mainBox img).minY := by
  have e := mainBox_mainCrop img h hq
  obtain ⟨eb, _⟩ := SubImage_of_safe img (mainBox img) (mainBox_safe img h)
  refine ⟨e, ?_⟩
  unfold reDecoded
  rw [mainBox_translate, e]
  unfold mainCrop
  rw [eb]

/-- The image `frameStrayAbove`: row 2 qualifies, the first run gives
`(2, 2, 4, 4)` and so does the second. -/
theorem crop_idempotent_witness :
    (∃ x y, BorderPixel frameStrayAbove x y) ∧
    mainBox frameStrayAbove = ⟨2, 2, 4, 4⟩ ∧
    mainBox (mainCrop frameStrayAbove) = mainBox frameStrayAbove ∧
    mainBox (reDecoded (mainCrop frameStrayAbove)) =
      (mainBox frameStrayAbove).shift (mainBox frameStrayAbove).minX
        (mainBox frameStrayAbove).minY :=
  ⟨⟨3, 0, by decide⟩, by decide,
    crop_idempotent frameStrayAbove ⟨3, 0, by decide⟩
      (Or.inl ⟨2, by decide, by decide, (isValidBorder_row_iff _ _ _ _).1 (by decide)⟩)⟩

/-- The image `twoColumns` has border pixels; the first run gives the box
`(1, 0, 3, 2)`, the image cut out for it has bounds `[1, 0, 4, 3)`, and the second
run gives `(1, 1, 3, 1)`, a rectangle of another height; read back from its PNG
file the second run gives `(0, 1, 2, 1)`, not `(0, 0, 2, 2)`. -/
theorem crop_not_idempotent :
    (∃ x y, BorderPixel twoColumns x y) ∧
    mainBox twoColumns = ⟨1, 0, 3, 2⟩ ∧
    (mainCrop twoColumns).Bounds = ⟨⟨1, 0⟩, ⟨4, 3⟩⟩ ∧
    mainBox (mainCrop twoColumns) = ⟨1, 1, 3, 1⟩ ∧
    mainBox (mainCrop twoColumns) ≠ mainBox twoColumns ∧
    mainBox (reDecoded (mainCrop twoColumns)) = ⟨0, 1, 2, 1⟩ ∧
    mainBox (reDecoded (mainCrop twoColumns)) ≠
      (mainBox twoColumns).shift (mainBox twoColumns).minX (mainBox twoColumns).minY :=
  ⟨⟨0, 0, by decide⟩, by decide, by decide, by decide, by decide, by decide, by decide⟩

end CropImage
